import Mathlib

/-!
Verification of the vidpak 12-bit tile codec (src/vidpak/pack.c) and its
FSE U16 entropy-coding driver (src/FiniteStateEntropy/lib/fseU16.c).

Pixel values, residuals and bytes are modelled as `Nat` with explicit
`% 2^k` wherever the C code relies on fixed-width wrap-around.  Frames are
modelled as functions `Int → Nat` (the C code indexes with signed strides),
scratch buffers as functions `Nat → Nat`, and produced byte streams as
`List Nat`.  Fallible C functions returning 0/NULL are modelled with
`Option`.
-/

set_option maxRecDepth 100000

namespace Vidpak

/-- `(pix - pred) & 0xFFF` on `uint16_t` operands: the uint16 subtraction
wraps modulo 2^16 and the mask keeps the low 12 bits, which together equal
the difference modulo 2^12 (since 2^12 divides 2^16).  From
`delta_encode_12bit` in pack.c. -/
def delta_encode_12bit (pix pred : Nat) : Nat :=
  ((pix + 65536) - pred % 65536) % 4096

/-- `(delta + pred) & 0xFFF` from `delta_decode_12bit` in pack.c. -/
def delta_decode_12bit (delta pred : Nat) : Nat :=
  (delta + pred) % 4096

/-- The `pack_context_t` structure from pack.c (the `diff` scratch buffer is
threaded separately through the pack/unpack functions; it is zero-initialised
at creation by `memset`). -/
structure pack_context_t where
  width : Nat
  height : Nat
  bpp : Nat
  twidth : Nat
  theight : Nat
  deriving Repr, DecidableEq

/-- `pack_create_context` from pack.c: validation of the arguments (all C
`int`s, hence `Int` here).  `malloc` is modelled as succeeding.  The returned
context stores the dimensions as `size_t` (`Nat`). -/
def pack_create_context (width height bpp twidth theight : Int) :
    Option pack_context_t :=
  if width ≤ 0 ∨ height ≤ 0 ∨ bpp ≤ 0 then none
  else if twidth ≤ 0 ∨ theight ≤ 0 then none
  else if twidth > width ∨ theight > height then none
  else some ⟨width.toNat, height.toNat, bpp.toNat, twidth.toNat, theight.toNat⟩

/-- `pack_calc_max_packed_size` from pack.c (the NULL-context case returns 0
and is not modelled: the Lean context is always a value). -/
def pack_calc_max_packed_size (ctx : pack_context_t) : Nat :=
  (ctx.width * ctx.height * ((ctx.bpp + 7) / 8)) +
    (4 * ((ctx.width + ctx.twidth - 1) / ctx.twidth) *
      ((ctx.height + ctx.theight - 1) / ctx.theight))

/-! ## Bit-sequence utilities

The FSE bitstream accumulates bits LSB-first and flushes bytes
little-endian (spec section 4.1).  Bit sequences are modelled as
`List Bool` in write order; `toBitsLSB n v` are the low `n` bits of `v`,
least significant first. -/

/-- The low `n` bits of `v`, least-significant bit first. -/
def toBitsLSB : Nat → Nat → List Bool
  | 0, _ => []
  | n + 1, v => (v % 2 = 1) :: toBitsLSB n (v / 2)

/-- The value of a bit sequence read least-significant bit first. -/
def bitsVal : List Bool → Nat
  | [] => 0
  | b :: bs => (if b then 1 else 0) + 2 * bitsVal bs

/-- Pack a bit sequence into bytes, 8 bits per byte LSB-first, the last
byte zero-padded at its high end. -/
def bytesOfBits : List Bool → List Nat
  | [] => []
  | b :: bs => bitsVal ((b :: bs).take 8) :: bytesOfBits ((b :: bs).drop 8)
  termination_by l => l.length
  decreasing_by simp [List.length_drop]; omega

/-- Unpack bytes into their bit sequence, 8 bits per byte LSB-first. -/
def bitsOfBytes : List Nat → List Bool
  | [] => []
  | b :: rest => toBitsLSB 8 b ++ bitsOfBytes rest

/-! ## FSE U16 constants

`FSEU16_MAX_MEMORY_USAGE = 15` and `FSEU16_DEFAULT_MEMORY_USAGE = 14` are
set in fseU16.c; the translation to table-log limits (`memory usage - 2`)
and the absolute bounds below are from the FSE headers, which are not part
of the sources (spec sections 3 and 4.2: `tableLog ∈ [5, 15]`,
`maxSymbolValue ≤ 4095`). -/

/-- `FSE_MAX_TABLELOG` for the U16 instantiation: memory usage 15 minus 2. -/
def FSE_MAX_TABLELOG : Nat := 13

/-- `FSE_DEFAULT_TABLELOG` for the U16 instantiation: memory usage 14 minus 2. -/
def FSE_DEFAULT_TABLELOG : Nat := 12

/-- `FSE_MIN_TABLELOG` (spec section 4.2: tableLog clamped to at least 5). -/
def FSE_MIN_TABLELOG : Nat := 5

/-- `FSE_MAX_SYMBOL_VALUE` for the U16 instantiation
(`FSEU16_SYMBOLVALUE_ABSOLUTEMAX` in fseU16.c). -/
def FSE_MAX_SYMBOL_VALUE : Nat := 4095

/-- The FSE error taxonomy (error_public.h, summarised in spec section
4.3): the C code returns error codes as large `size_t` values; only the
distinctions used by the callers are modelled. -/
inductive FSE_Error where
  | dstSize_tooSmall
  | srcSize_wrong
  | maxSymbolValue_tooSmall
  | maxSymbolValue_tooLarge
  | tableLog_tooLarge
  | corruption_detected
  | GENERIC
  deriving Repr, DecidableEq

/-! ## FSE histogram (`FSE_countU16`, fseU16.c lines 123-147) -/

/-- The trailing-zero trim loop of `FSE_countU16`
(`while (!count[maxSymbolValue]) maxSymbolValue--;`): since the source is
non-empty and every value is at most `maxSymbolValue` when the loop runs,
it computes the largest value occurring in `src`. -/
def FSE_countTrim (src : List Nat) : Nat :=
  src.foldl max 0

/-- `FSE_countU16`: histogram of the `U16` source.  Returns the largest
count together with the tightened `maxSymbolValue`; fails with
`maxSymbolValue_tooSmall` if some value exceeds the bound.  The histogram
array itself is `fun s => src.count s`. -/
def FSE_countU16 (src : List Nat) (maxSymbolValue : Nat) :
    Except FSE_Error (Nat × Nat) :=
  if src.length = 0 then .ok (0, 0)
  else if src.any (fun v => v > maxSymbolValue) then
    .error .maxSymbolValue_tooSmall
  else
    let msv := FSE_countTrim src
    .ok ((List.range (msv + 1)).foldl (fun m s => max m (src.count s)) 0, msv)

/-! ## FSE table-log selection

Modelled from the spec: `FSE_optimalTableLog` lives in fse_compress.c,
which is not among the sources.  Spec section 4.2 gives the clamp to
`[5, 15]` (here further capped by `FSE_MAX_TABLELOG`), a source-size based
cap, and the default; the lower bound `FSE_minTableLog` (enough table
slots for every distinct symbol) is required by the normalization law of
spec section 8. -/

/-- Modelled from the spec: `FSE_minTableLog` of fse_compress.c: the
smallest tableLog with enough slots for the alphabet
(`min(log2ceil(srcSize), log2(maxSymbolValue) + 2)`). -/
def FSE_minTableLog (srcSize maxSymbolValue : Nat) : Nat :=
  min (Nat.log2 (srcSize - 1) + 1) (Nat.log2 maxSymbolValue + 2)

/-- Modelled from the spec: `FSE_optimalTableLog` of fse_compress.c (spec
section 4.2 "Optimal tableLog"). -/
def FSE_optimalTableLog (maxTableLog srcSize maxSymbolValue : Nat) : Nat :=
  let tableLog := if maxTableLog = 0 then FSE_DEFAULT_TABLELOG else maxTableLog
  let maxBitsSrc := Nat.log2 (srcSize - 1) - 2
  let tableLog := if maxBitsSrc < tableLog then maxBitsSrc else tableLog
  let minBits := FSE_minTableLog srcSize maxSymbolValue
  let tableLog := if minBits > tableLog then minBits else tableLog
  min (max tableLog FSE_MIN_TABLELOG) FSE_MAX_TABLELOG

/-! ## FSE normalization

Modelled from the spec: `FSE_normalizeCount` lives in fse_compress.c,
which is not among the sources.  Spec section 4.2: zero counts stay zero,
low-probability symbols receive count 1, the remaining mass is distributed
proportionally with a running rest accumulator, and the normalized counts
sum exactly to `2^tableLog` (spec section 8 "Normalization law").  The
low-probability marker `-1` only distinguishes serialized counts; both
table builders give such symbols one slot, so it is represented as 1. -/

/-- Modelled from the spec: the proportional distribution loop of
`FSE_normalizeCount`.  `left` slots and `total` remaining true counts;
every nonzero count receives at least one slot, never more than would
starve the remaining nonzero symbols, and the last nonzero symbol absorbs
the remaining slots (the running rest accumulator). -/
def normalizeLoop : Nat → Nat → List Nat → List Nat
  | _, _, [] => []
  | left, total, c :: rest =>
    if c = 0 then 0 :: normalizeLoop left total rest
    else
      let m := rest.countP (fun x => x ≠ 0)
      if m = 0 then left :: normalizeLoop 0 (total - c) rest
      else
        let n := min (left - m) (max 1 (c * left / total))
        n :: normalizeLoop (left - n) (total - c) rest

/-- Modelled from the spec: `FSE_normalizeCount` of fse_compress.c.
`counts` is the histogram over symbols `0 .. maxSymbolValue`; the result
sums to `2^tableLog`. -/
def FSE_normalizeCount (tableLog : Nat) (counts : List Nat) (total : Nat) :
    Except FSE_Error (List Nat) :=
  if total ≤ 1 then .error .GENERIC
  else if 2 ^ tableLog < counts.countP (fun x => x ≠ 0) then .error .GENERIC
  else .ok (normalizeLoop (2 ^ tableLog) total counts)

/-! ## NCount header serialization

Modelled from the spec: `FSE_writeNCount` / `FSE_readNCount` live in
fse_compress.c / entropy_common.c, which are not among the sources.  Spec
sections 4.2 and 6: the header starts with 4 bits `tableLog - 5`, then the
normalized counts in symbol order, each using the minimum number of bits
that can express the remaining budget; the reader stops once the budget
`2^tableLog` is exhausted; the header is byte-aligned.  (The zero-run
repeat codes and the `-1` low-probability marker of the reference format
only shrink the header; they are not modelled.) -/

/-- Bits needed to write a value in `[0, r]` (`r ≥ 1`). -/
def ncountBitsFor (r : Nat) : Nat := Nat.log2 r + 1

/-- Modelled from the spec: the count-writing loop of `FSE_writeNCount`:
each count is written in `ncountBitsFor left` bits, where `left` is the
remaining budget; writing stops when the budget hits zero. -/
def writeNCountLoop : Nat → List Nat → List Bool
  | _, [] => []
  | left, n :: rest =>
    if left = 0 then []
    else toBitsLSB (ncountBitsFor left) n ++ writeNCountLoop (left - n) rest

/-- Modelled from the spec: `FSE_writeNCount` of fse_compress.c.  Produces
the byte-aligned header (4 bits `tableLog - 5`, then the counts), failing
with `dstSize_tooSmall` if it does not fit in `maxDstSize` bytes. -/
def FSE_writeNCount (maxDstSize : Nat) (norm : List Nat) (tableLog : Nat) :
    Except FSE_Error (List Nat) :=
  let bits := toBitsLSB 4 (tableLog - 5) ++ writeNCountLoop (2 ^ tableLog) norm
  let bytes := bytesOfBits bits
  if bytes.length > maxDstSize then .error .dstSize_tooSmall else .ok bytes

/-- Modelled from the spec: the count-reading loop of `FSE_readNCount`.
`fuel` bounds the number of symbols (`maxSymbolValue + 1`); returns the
counts and the unread bits. -/
def readNCountLoop : Nat → Nat → List Bool → Except FSE_Error (List Nat × List Bool)
  | _, 0, bits => .ok ([], bits)
  | 0, _, _ => .error .maxSymbolValue_tooSmall
  | fuel + 1, left, bits =>
    let nb := ncountBitsFor left
    if bits.length < nb then .error .corruption_detected
    else
      let c := bitsVal (bits.take nb)
      if left < c then .error .corruption_detected
      else
        match readNCountLoop fuel (left - c) (bits.drop nb) with
        | .error e => .error e
        | .ok (cs, rest) => .ok (c :: cs, rest)

/-- Modelled from the spec: `FSE_readNCount` of entropy_common.c.  Returns
the normalized counts, the recovered `maxSymbolValue` and `tableLog`, and
the number of header bytes consumed. -/
def FSE_readNCount (cSrc : List Nat) (maxSVBound : Nat) :
    Except FSE_Error (List Nat × Nat × Nat × Nat) :=
  if cSrc.length = 0 then .error .srcSize_wrong
  else
    let bits := bitsOfBytes cSrc
    let tableLog := bitsVal (bits.take 4) + 5
    if tableLog > 15 then .error .tableLog_tooLarge
    else
      match readNCountLoop (maxSVBound + 1) (2 ^ tableLog) (bits.drop 4) with
      | .error e => .error e
      | .ok (counts, rest) =>
        if counts.length = 0 then .error .corruption_detected
        else
          .ok (counts, counts.length - 1, tableLog,
            (8 * cSrc.length - rest.length + 7) / 8)

/-! ## FSE table construction

Modelled from the spec: `FSE_buildCTableU16` / `FSE_buildDTableU16` live
in fse_compress.c / fse_decompress.c, which are not among the sources.
Spec section 4.2: every slot `0 .. 2^tableLog - 1` is assigned a symbol in
a stepping order (`step = tableSize/2 + tableSize/8 + 3`, modulo the table
size) so that each symbol receives exactly its normalized count of slots.
Both tables are derived from the slot assignment: the encoder maps the
`k`-th sub-state of a symbol to that symbol's `k`-th slot (in increasing
slot order), and the decoder entry of the `k`-th slot of symbol `s` with
normalized count `n` has `nextState = n + k`,
`nbBits = tableLog - ⌊log2 nextState⌋` and
`newState = nextState · 2^nbBits - tableSize`. -/

/-- The slot-stepping increment (spec section 4.2). -/
def fseTableStep (tableSize : Nat) : Nat := tableSize / 2 + tableSize / 8 + 3

/-- The symbol assigned to walk index `i`: symbols in order, each repeated
its normalized count of times (`norm` is the normalized count list). -/
def symAt : List Nat → Nat → Nat
  | [], _ => 0
  | n :: rest, i => if i < n then 0 else 1 + symAt rest (i - n)

/-- The walk index whose slot is `u`: the inverse of
`i ↦ i · step mod tableSize` (the step is odd, so the walk is a
permutation of the slots). -/
def invStep (tableSize u : Nat) : Nat :=
  (List.range tableSize).findIdx
    (fun i => i * fseTableStep tableSize % tableSize = u)

/-- The symbol spread over the table slots: slot `u` holds the symbol of
walk index `invStep u`. -/
def spreadSym (norm : List Nat) (tableSize u : Nat) : Nat :=
  symAt norm (invStep tableSize u)

/-- The slots assigned to symbol `s`, in increasing slot order. -/
def fiberList (norm : List Nat) (tableSize s : Nat) : List Nat :=
  (List.range tableSize).filter (fun u => spreadSym norm tableSize u = s)

/-- The `k`-th slot (in increasing slot order) assigned to symbol `s`. -/
def slotOf (norm : List Nat) (tableSize s k : Nat) : Nat :=
  (fiberList norm tableSize s).getD k 0

/-- The rank of slot `u` among the slots of its own symbol. -/
def rankOf (norm : List Nat) (tableSize u : Nat) : Nat :=
  ((List.range u).filter
    (fun v => spreadSym norm tableSize v = spreadSym norm tableSize u)).length

/-- An FSE decode table: `tableLog` plus one entry
`(newState, nbBits, symbol)` per slot (the `FSE_decode_tU16` layout of
fseU16.c). -/
structure FSE_DTableU16 where
  tableLog : Nat
  entries : List (Nat × Nat × Nat)
  deriving Repr

/-- Modelled from the spec: `FSE_buildDTableU16` of fse_decompress.c
(instantiated in fseU16.c): the decode entry of each slot, per the rule in
spec section 4.2. -/
def FSE_buildDTableU16 (norm : List Nat) (maxSymbolValue tableLog : Nat) :
    Except FSE_Error FSE_DTableU16 :=
  if tableLog > FSE_MAX_TABLELOG then .error .tableLog_tooLarge
  else if maxSymbolValue > FSE_MAX_SYMBOL_VALUE then .error .maxSymbolValue_tooLarge
  else
    let tableSize := 2 ^ tableLog
    .ok ⟨tableLog, (List.range tableSize).map (fun u =>
      let s := spreadSym norm tableSize u
      let nextState := norm.getD s 0 + rankOf norm tableSize u
      let nbBits := tableLog - Nat.log2 nextState
      (nextState * 2 ^ nbBits - tableSize, nbBits, s))⟩

/-! ## BitStream

Modelled from the spec: bitstream.h is not among the sources.  Spec
section 4.1: the writer accumulates bits LSB-first and flushes bytes
little-endian; `close` writes a terminating "1" sentinel bit after the
last symbol and returns the byte length; the reader locates the sentinel
in the last non-zero byte and then pops the most recently written bits
first (symbols written in order are recovered in reverse).  The write side
is the accumulated bit sequence; flushing is byte accounting only, so the
returned length is `⌈bits/8⌉` and the 64-bit-accumulator overflow check of
`BIT_closeCStream` becomes `⌊bits/8⌋ ≥ capacity - 8` (the writer keeps up
to 7 unflushed bits and `endPtr` sits 8 bytes before the end). -/

/-- Modelled from the spec: `BIT_initCStream`: fails (result 0, see
`FSE_compressU16_usingCTable`) when the capacity is at most the 8-byte
accumulator. -/
def BIT_CStream_initOk (cap : Nat) : Bool := decide (8 < cap)

/-- Modelled from the spec: `BIT_closeCStream`: append the sentinel "1"
bit, detect overflow against the capacity, and return the byte count and
the flushed bytes (0 and `[]` on overflow). -/
def BIT_closeCStream (cap : Nat) (bits : List Bool) : Nat × List Nat :=
  let b := bits ++ [true]
  if cap - 8 ≤ b.length / 8 then (0, [])
  else ((b.length + 7) / 8, bytesOfBits b)

/-- Modelled from the spec: the read side of the bitstream.  `avail` holds
the not-yet-read bits in write order (reads pop from the end);
`overflowed` records an attempt to read past the start of the buffer. -/
structure BIT_DStream_t where
  avail : List Bool
  overflowed : Bool
  deriving Repr

/-- The `BIT_reloadDStream` status codes (bitstream.h, spec section 4.1). -/
inductive BIT_DStream_status where
  | unfinished | endOfBuffer | completed | overflow
  deriving Repr, DecidableEq

/-- Modelled from the spec: `BIT_initDStream`: fails on an empty buffer or
a zero final byte; otherwise positions the reader under the sentinel "1"
bit of the last non-zero byte. -/
def BIT_initDStream (cSrc : List Nat) : Except FSE_Error BIT_DStream_t :=
  if cSrc.length = 0 then .error .srcSize_wrong
  else if cSrc.getLast! % 256 = 0 then .error .GENERIC
  else
    let r := (bitsOfBytes cSrc).reverse.dropWhile (fun b => b = false)
    .ok ⟨r.tail.reverse, false⟩

/-- Modelled from the spec: `BIT_readBits`: pop the `n` most recently
written bits and return their LSB-first value.  Reading past the start of
the buffer returns the in-range bits shifted into the high positions (the
low positions would be filled from out-of-bounds memory, modelled as 0)
and marks the stream overflowed. -/
def BIT_readBits (d : BIT_DStream_t) (n : Nat) : Nat × BIT_DStream_t :=
  if n ≤ d.avail.length then
    (bitsVal (d.avail.drop (d.avail.length - n)),
      ⟨d.avail.take (d.avail.length - n), d.overflowed⟩)
  else
    (2 ^ (n - d.avail.length) * bitsVal d.avail, ⟨[], true⟩)

/-- Modelled from the spec: `BIT_reloadDStream`: `overflow` once a read
went past the buffer start, `unfinished` while a full 64-bit refill is
available, `completed` when every bit has been consumed.  (The in-source
loops only compare against `unfinished` and `overflow`, and any threshold
of at least `4 · FSE_MAX_TABLELOG` bits yields the same behaviour there.) -/
def BIT_reloadDStream (d : BIT_DStream_t) : BIT_DStream_status :=
  if d.overflowed then .overflow
  else if 64 ≤ d.avail.length then .unfinished
  else if d.avail.length = 0 then .completed
  else .endOfBuffer

/-! ## FSE U16 encode-side state machine

Modelled from the spec: `FSE_initCState2`, `FSE_encodeSymbol` and
`FSE_flushCState` live in fse.h, which is not among the sources.  Spec
section 4.3: state values live in `[tableSize, 2·tableSize)`; encoding
symbol `x` from state `s` writes the low
`nbBits = (s + deltaNbBits[x]) >> 16` bits of `s` and steps to
`encodeTable[(s >> nbBits) + deltaFindState[x]]`.  With
`deltaNbBits[x] = (maxBits << 16) - (n << maxBits)` (`n` the normalized
count, `maxBits = tableLog - ⌊log2 (n-1)⌋`) that shift equals `maxBits`
when `n · 2^maxBits ≤ s` and `maxBits - 1` otherwise, and the table lookup
lands on the symbol's `(s >> nbBits) - n`-th slot. -/

/-- The encode "table" of `FSE_buildCTableU16`: everything the encoder
needs is the table log and the normalized counts (the slot assignment is
recomputed by `slotOf`). -/
structure FSE_CTableU16 where
  tableLog : Nat
  norm : List Nat
  deriving Repr

/-- Modelled from the spec: the number of bits `FSE_encodeSymbol` writes
from state `st` for a symbol of normalized count `n`. -/
def encNbBits (tableLog n st : Nat) : Nat :=
  let mb := tableLog - Nat.log2 (n - 1)
  if n * 2 ^ mb ≤ st then mb else mb - 1

/-- Modelled from the spec: `FSE_encodeSymbol`: append the low `nbBits`
of the state and step to the symbol's next slot. -/
def FSE_encodeSymbol (ct : FSE_CTableU16) (st s : Nat) (bits : List Bool) :
    Nat × List Bool :=
  let tableSize := 2 ^ ct.tableLog
  let n := ct.norm.getD s 0
  let nb := encNbBits ct.tableLog n st
  (tableSize + slotOf ct.norm tableSize s (st / 2 ^ nb - n),
    bits ++ toBitsLSB nb st)

/-- Modelled from the spec: `FSE_initCState2`: the initial state for a
symbol, which is the symbol's first slot (upstream reaches it through the
`maxBitsOut` shift of the same `deltaNbBits` arithmetic). -/
def FSE_initCState2 (ct : FSE_CTableU16) (s : Nat) : Nat :=
  2 ^ ct.tableLog + slotOf ct.norm (2 ^ ct.tableLog) s 0

/-- Modelled from the spec: `FSE_flushCState`: append the low `tableLog`
bits of the final state value. -/
def FSE_flushCState (ct : FSE_CTableU16) (st : Nat) (bits : List Bool) :
    List Bool :=
  bits ++ toBitsLSB ct.tableLog st

/-- The paired encode loop of `FSE_compressU16_usingCTable` (fseU16.c
lines 178-202): the remaining input is walked tail-first in pairs, `State2`
then `State1` (the mod-4 grouping only moves the `BIT_flushBits` calls,
which the bit-sequence model renders as no-ops).  `rev` is the input in
reverse order. -/
def FSE_encodePairs (ct : FSE_CTableU16) :
    List Nat → Nat → Nat → List Bool → Nat × Nat × List Bool
  | [], st1, st2, bits => (st1, st2, bits)
  | [_], st1, st2, bits => (st1, st2, bits)
  | a :: b :: rest, st1, st2, bits =>
    let r2 := FSE_encodeSymbol ct st2 a bits
    let r1 := FSE_encodeSymbol ct st1 b r2.2
    FSE_encodePairs ct rest r1.1 r2.1 r1.2

/-- The state initialization and encode loop of
`FSE_compressU16_usingCTable` (fseU16.c lines 168-202): initialize the two
states from the last two symbols (with one extra `State1` encode when the
length is odd), then encode the rest tail-first in pairs.  Returns
`(state1, state2, bits)`. -/
def FSE_encodeBody (ct : FSE_CTableU16) (src : List Nat) :
    Nat × Nat × List Bool :=
  let rev := src.reverse
  if src.length % 2 = 1 then
    let st1 := FSE_initCState2 ct (rev.getD 0 0)
    let st2 := FSE_initCState2 ct (rev.getD 1 0)
    let e := FSE_encodeSymbol ct st1 (rev.getD 2 0) []
    FSE_encodePairs ct (rev.drop 3) e.1 st2 e.2
  else
    let st2 := FSE_initCState2 ct (rev.getD 0 0)
    let st1 := FSE_initCState2 ct (rev.getD 1 0)
    FSE_encodePairs ct (rev.drop 2) st1 st2 []

/-- `FSE_compressU16_usingCTable` (fseU16.c lines 152-207): run the encode
body, flush `State2` then `State1`, and close the stream.  Returns
`(0, [])` when the input has at most 2 symbols or the capacity check of
`BIT_initCStream` fails. -/
def FSE_compressU16_usingCTable (cap : Nat) (src : List Nat)
    (ct : FSE_CTableU16) : Nat × List Nat :=
  if src.length ≤ 2 then (0, [])
  else if ¬ BIT_CStream_initOk cap then (0, [])
  else
    let r := FSE_encodeBody ct src
    BIT_closeCStream cap (FSE_flushCState ct r.1 (FSE_flushCState ct r.2.1 r.2.2))

/-- The outcome of `FSE_compressU16` as interpreted by its caller
(pack.c lines 204-215): an error code, 0 (not compressible, or at most
0 values), 1 (single value / RLE), or the compressed bytes. -/
inductive FSE_cres where
  | error (e : FSE_Error)
  | uncompressible
  | rle
  | compressed (bytes : List Nat)
  deriving Repr

/-- The post-histogram stage of `FSE_compressU16` (fseU16.c lines
236-259): normalize, write the NCount header, compress, map the buffer
overflow, and apply the compressibility check.  `msv` is the tightened
`maxSymbolValue` and `tl0` the caller's (defaulted) table log. -/
def FSE_compressU16_body (maxDstSize srcSize : Nat) (src : List Nat)
    (msv tl0 : Nat) : FSE_cres :=
  let tl := FSE_optimalTableLog tl0 srcSize msv
  match FSE_normalizeCount tl
      ((List.range (msv + 1)).map (fun s => src.count s)) srcSize with
  | .error e => .error e
  | .ok norm =>
    match FSE_writeNCount maxDstSize norm tl with
    | .error e => .error e
    | .ok header =>
      let r := FSE_compressU16_usingCTable (maxDstSize - header.length)
        src ⟨tl, norm⟩
      if r.1 = 0 then .error .dstSize_tooSmall
      else if (srcSize - 1) * 2 ≤ header.length + r.2.length then
        .uncompressible
      else .compressed (header ++ r.2)

/-- `FSE_compressU16` (fseU16.c lines 210-260). -/
def FSE_compressU16 (maxDstSize : Nat) (src : List Nat)
    (maxSymbolValue tableLog : Nat) : FSE_cres :=
  let srcSize := src.length
  if srcSize = 0 then .uncompressible
  else if srcSize = 1 then .rle
  else
    let msv0 := if maxSymbolValue = 0 then FSE_MAX_SYMBOL_VALUE else maxSymbolValue
    let tl0 := if tableLog = 0 then FSE_DEFAULT_TABLELOG else tableLog
    if FSE_MAX_SYMBOL_VALUE < msv0 then .error .maxSymbolValue_tooLarge
    else if FSE_MAX_TABLELOG < tl0 then .error .tableLog_tooLarge
    else
      match FSE_countU16 src msv0 with
      | .error e => .error e
      | .ok (maxCount, msv) =>
        if maxCount = srcSize then .rle
        else FSE_compressU16_body maxDstSize srcSize src msv tl0

/-! ## FSE U16 decompression (fseU16.c lines 267-364) -/

/-- `FSE_decodeSymbolU16` (fseU16.c lines 267-276): look up the current
state's entry, read `nbBits`, and step.  Returns
`(symbol, new state, stream)`. -/
def FSE_decodeSymbolU16 (dt : FSE_DTableU16) (st : Nat) (d : BIT_DStream_t) :
    Nat × Nat × BIT_DStream_t :=
  let e := dt.entries.getD st (0, 0, 0)
  let r := BIT_readBits d e.2.1
  (e.2.2, e.1 + r.1, r.2)

/-- The 4-symbols-per-iteration main loop of
`FSE_decompressU16_usingDTable` (fseU16.c lines 299-316); the static
container-size tests inside it are compiled out for a 64-bit container.
`fuel` only bounds the recursion; the loop exits on `op < olimit` first. -/
def FSE_decompU16_loop4 (dt : FSE_DTableU16) (olimit : Nat) :
    Nat → Nat → Nat → BIT_DStream_t → List Nat →
      Nat × Nat × BIT_DStream_t × List Nat
  | 0, st1, st2, d, acc => (st1, st2, d, acc)
  | fuel + 1, st1, st2, d, acc =>
    if BIT_reloadDStream d = .unfinished ∧ acc.length < olimit then
      let r0 := FSE_decodeSymbolU16 dt st1 d
      let r1 := FSE_decodeSymbolU16 dt st2 r0.2.2
      let r2 := FSE_decodeSymbolU16 dt r0.2.1 r1.2.2
      let r3 := FSE_decodeSymbolU16 dt r1.2.1 r2.2.2
      FSE_decompU16_loop4 dt olimit fuel r2.2.1 r3.2.1 r3.2.2
        (acc ++ [r0.1, r1.1, r2.1, r3.1])
    else (st1, st2, d, acc)

/-- The tail loop of `FSE_decompressU16_usingDTable` (fseU16.c lines
320-333): alternate the two states one symbol at a time, watching for the
overflow that marks the end of the stream; each emission is preceded by
the `op > omax - 2` capacity check. -/
def FSE_decompU16_tail (dt : FSE_DTableU16) (omax : Nat) :
    Nat → Nat → Nat → BIT_DStream_t → List Nat → Except FSE_Error (List Nat)
  | 0, _, _, _, _ => .error .GENERIC
  | fuel + 1, st1, st2, d, acc =>
    if omax < acc.length + 2 then .error .dstSize_tooSmall
    else
      let r1 := FSE_decodeSymbolU16 dt st1 d
      if BIT_reloadDStream r1.2.2 = .overflow then
        let r2 := FSE_decodeSymbolU16 dt st2 r1.2.2
        .ok (acc ++ [r1.1, r2.1])
      else if omax < acc.length + 3 then .error .dstSize_tooSmall
      else
        let r2 := FSE_decodeSymbolU16 dt st2 r1.2.2
        if BIT_reloadDStream r2.2.2 = .overflow then
          let r3 := FSE_decodeSymbolU16 dt r1.2.1 r2.2.2
          .ok (acc ++ [r1.1, r2.1, r3.1])
        else FSE_decompU16_tail dt omax fuel r1.2.1 r2.2.1 r2.2.2
          (acc ++ [r1.1, r2.1])

/-- `FSE_decompressU16_usingDTable` (fseU16.c lines 279-336): init the
stream and both states, run the 4-wide main loop, then the tail loop.
Returns the decoded symbols (the C function returns their count and
writes them to `dst`). -/
def FSE_decompressU16_usingDTable (maxDstSize : Nat) (cSrc : List Nat)
    (dt : FSE_DTableU16) : Except FSE_Error (List Nat) :=
  match BIT_initDStream cSrc with
  | .error e => .error e
  | .ok d0 =>
    let i1 := BIT_readBits d0 dt.tableLog
    let i2 := BIT_readBits i1.2 dt.tableLog
    let m := FSE_decompU16_loop4 dt (maxDstSize - 3) maxDstSize i1.1 i2.1 i2.2 []
    FSE_decompU16_tail dt maxDstSize (maxDstSize + 2) m.1 m.2.1 m.2.2.1 m.2.2.2

/-- `FSE_decompressU16` (fseU16.c lines 341-364): sanity check, read the
NCount header, build the decode table, decode the body. -/
def FSE_decompressU16 (maxDstSize : Nat) (cSrc : List Nat) :
    Except FSE_Error (List Nat) :=
  if cSrc.length < 2 then .error .srcSize_wrong
  else
    match FSE_readNCount cSrc FSE_MAX_SYMBOL_VALUE with
    | .error e => .error e
    | .ok (norm, msv, tl, nsize) =>
      match FSE_buildDTableU16 norm msv tl with
      | .error e => .error e
      | .ok dt => FSE_decompressU16_usingDTable maxDstSize (cSrc.drop nsize) dt

/-! ## The average-predictor tile packer (pack.c lines 104-237)

The scratch buffer `diff` is a function `Nat → Nat` threaded through the
calls (it belongs to the context and survives between tiles); frames are
functions `Int → Nat` (the C code walks them with signed strides `dx`,
`dy` in u16 units).  A tile packer returns the payload bytes (`none` for
the C return value 0) together with the updated scratch buffer. -/

/-- Pointwise update of a scratch buffer. -/
def upd (f : Nat → Nat) (i v : Nat) : Nat → Nat :=
  fun x => if x = i then v else f x

/-- Pointwise update of a frame. -/
def updZ (f : Int → Nat) (i : Int) (v : Nat) : Int → Nat :=
  fun x => if x = i then v else f x

/-- A frame viewed from a base offset (C pointer arithmetic
`&src[off]`). -/
def shiftF (f : Int → Nat) (off : Int) : Int → Nat :=
  fun i => f (off + i)

/-- The average prediction `(a + b) >> 1` on `uint16_t` operands (pack.c
lines 190-193): the sum is computed in `int` and the shifted result stored
back into 16 bits. -/
def avgPred (a b : Nat) : Nat := (a + b) / 2 % 65536

/-- The first-row loop of `pack_12bit_average` (pack.c lines 157-163):
left-neighbor prediction, `n` remaining columns starting at column `j`,
four slices interleaved at offset `o`.  `b k` is the base offset of slice
`k`. -/
def pack_row0 (slices : Nat) (src : Int → Nat) (b : Nat → Int) (dx : Int) :
    Nat → Nat → (Nat → Nat) → Nat → (Nat → Nat) × Nat
  | 0, _, diff, o => (diff, o)
  | n + 1, j, diff, o =>
    let x : Int := dx * j
    let w := fun (d : Nat → Nat) (k : Nat) =>
      if k < slices then
        upd d (o + k) (delta_encode_12bit (src (b k + x)) (src (b k + x - dx)))
      else d
    pack_row0 slices src b dx n (j + 1) (w (w (w (w diff 0) 1) 2) 3) (o + slices)

/-- The inner column loop of the main rows of `pack_12bit_average` (pack.c
lines 188-199): average prediction from the left and top neighbors.
`p k` is the current row base of slice `k` and `s k` its active flag. -/
def pack_rowy_cols (src : Int → Nat) (p : Nat → Int) (s : Nat → Bool)
    (active : Nat) (dx dy : Int) :
    Nat → Nat → (Nat → Nat) → Nat → (Nat → Nat) × Nat
  | 0, _, diff, o => (diff, o)
  | n + 1, j, diff, o =>
    let x : Int := dx * j
    let w := fun (d : Nat → Nat) (k : Nat) =>
      if s k then
        upd d (o + k) (delta_encode_12bit (src (p k + x))
          (avgPred (src (p k + x - dx)) (src (p k + x - dy))))
      else d
    pack_rowy_cols src p s active dx dy n (j + 1)
      (w (w (w (w diff 0) 1) 2) 3) (o + active)

/-- The per-row slice-active flag of the main loops (pack.c lines
168-171 and 323-326). -/
def sliceFlag (sheight hm y k : Nat) : Bool :=
  decide (y < sheight - 1) || decide (hm > k) || decide (hm = 0)

/-- The `active` count of pack.c lines 172 and 327: the number of slices
processed in main row `y`. -/
def rowActive (sheight hm y : Nat) : Nat :=
  (if sliceFlag sheight hm y 0 then 1 else 0) +
    (if sliceFlag sheight hm y 1 then 1 else 0) +
    (if sliceFlag sheight hm y 2 then 1 else 0) +
    (if sliceFlag sheight hm y 3 then 1 else 0)

/-- Total active-slice count over the main rows `y, y+1, …, y+n-1`
(bookkeeping for the verification; the C code tracks the running offset
instead). -/
def activeSumF (sheight hm : Nat) : Nat → Nat → Nat
  | _, 0 => 0
  | y, n + 1 => rowActive sheight hm y + activeSumF sheight hm (y + 1) n

/-- The main row loop of `pack_12bit_average` (pack.c lines 166-200):
advance the active slice pointers, top-neighbor prediction for column 0,
then the average-prediction columns.  `n` counts the remaining rows
starting at row `y`; `p k` holds the current row base of slice `k`. -/
def pack_rows (width sheight hm : Nat) (src : Int → Nat) (dx dy : Int) :
    Nat → Nat → (Nat → Int) → (Nat → Nat) → Nat → (Nat → Nat) × Nat
  | 0, _, _, diff, o => (diff, o)
  | n + 1, y, p, diff, o =>
    let s := fun (k : Nat) => sliceFlag sheight hm y k
    let active := rowActive sheight hm y
    let p' := fun (k : Nat) => p k + (if s k then dy else 0)
    let w := fun (d : Nat → Nat) (k : Nat) =>
      if s k then
        upd d (o + k) (delta_encode_12bit (src (p' k)) (src (p' k - dy)))
      else d
    let r := pack_rowy_cols src p' s active dx dy (width - 1) 1
      (w (w (w (w diff 0) 1) 2) 3) (o + active)
    pack_rows width sheight hm src dx dy n (y + 1) p' r.1 r.2

/-- The raw-fallback output loop of `pack_12bit_average` (pack.c lines
225-231): the tile pixels little-endian, 12 valid bits each. -/
def rawTileBytes (width height : Nat) (src : Int → Nat) (dx dy : Int) :
    List Nat :=
  (List.range height).flatMap (fun iy =>
    (List.range width).flatMap (fun ix =>
      let pv := src (dy * iy + dx * ix)
      [pv % 256, pv / 256 % 16]))

/-- The slice heights `h0..h3` of `pack_12bit_average` (pack.c lines
127-130): `sheight` minus one for the slices that lose a row when the
height is not a multiple of 4. -/
def sliceH (sheight hm k : Nat) : Nat :=
  sheight - (if hm ≠ 0 ∧ hm ≤ k then 1 else 0)

/-- The seed bytes: the first pixel of each live slice, little-endian with
the high nibble masked (pack.c lines 138-153). -/
def seedBytes (slices : Nat) (src : Int → Nat) (b : Nat → Int) : List Nat :=
  (List.range slices).flatMap (fun k => [src (b k) % 256, src (b k) / 256 % 16])

/-- The residual compression and payload assembly of `pack_12bit_average`
(pack.c lines 202-236): FSE compress the residuals `diff[slices ..
pixels-1]` and interpret the return value (error / RLE / raw fallback /
compressed). -/
def pack_12bit_tail (bytes sb slices pixels : Nat) (raw seeds : List Nat)
    (diff : Nat → Nat) : Option (List Nat) × (Nat → Nat) :=
  match FSE_compressU16 (bytes - sb)
      ((List.range (pixels - slices)).map (fun i => diff (slices + i)))
      4095 0 with
  | .error .dstSize_tooSmall => (some raw, diff)
  | .error _ => (none, diff)
  | .rle => (some (seeds ++ [diff slices % 256, diff slices / 256 % 256]), diff)
  | .uncompressible => (some raw, diff)
  | .compressed body => (some (seeds ++ body), diff)

/-- `pack_12bit_average` (pack.c lines 109-237): slice the tile into four
horizontal slices, emit the slice-origin pixels verbatim, fill the scratch
buffer with the left / top / average prediction residuals, then entropy
code the residuals and pick the FSE / RLE / raw payload shape.  Returns
`none` for the C return value 0. -/
def pack_12bit_average (width height : Nat) (diff : Nat → Nat)
    (src : Int → Nat) (dx dy : Int) : Option (List Nat) × (Nat → Nat) :=
  if height = 0 ∨ width = 0 then (none, diff)
  else
    let pixels := width * height
    let bytes := 2 * pixels
    let sheight := (height + 3) / 4
    let slices := min height 4
    let hm := height % 4
    if sliceH sheight hm 0 + sliceH sheight hm 1 + sliceH sheight hm 2 +
        sliceH sheight hm 3 ≠ height then (none, diff)
    else
      let b : Nat → Int := fun k =>
        if k = 0 then 0
        else dy * (sliceH sheight hm 0 +
          (if 2 ≤ k then sliceH sheight hm 1 else 0) +
          (if 3 ≤ k then sliceH sheight hm 2 else 0))
      let r0 := pack_row0 slices src b dx (width - 1) 1 diff slices
      let r := pack_rows width sheight hm src dx dy (sheight - 1) 1 b r0.1 r0.2
      pack_12bit_tail bytes (2 * slices) slices pixels
        (rawTileBytes width height src dx dy) (seedBytes slices src b) r.1

/-! ## The average-predictor tile unpacker (pack.c lines 239-366) -/

/-- A 16-bit little-endian load from two payload bytes
(`(uint16_t)src[hi] << 8 | src[lo]`). -/
def le16 (payload : List Nat) (pos : Nat) : Nat :=
  payload.getD (pos + 1) 0 * 256 + payload.getD pos 0

/-- The RLE fill loop of `unpack_12bit_average` (pack.c lines 262-264):
store the repeated residual at scratch indices `slices .. pixels - 1`. -/
def rleFill (v : Nat) : Nat → Nat → (Nat → Nat) → Nat → Nat
  | 0, _, diff => diff
  | n + 1, i, diff => rleFill v n (i + 1) (upd diff i v)

/-- Writing the FSE-decoded residuals into the scratch buffer starting at
index `slices` (the C decoder writes through `diff + slices`). -/
def diffWrite : List Nat → Nat → (Nat → Nat) → Nat → Nat
  | [], _, diff => diff
  | v :: rest, i, diff => diffWrite rest (i + 1) (upd diff i v)

/-- The raw-input copy loop of `unpack_12bit_average` (pack.c lines
267-273): consecutive little-endian byte pairs back into the frame. -/
def rawTileRead (width height : Nat) (payload : List Nat) (dest : Int → Nat)
    (dx dy : Int) : Int → Nat :=
  (List.range height).foldl (fun d (iy : Nat) =>
    (List.range width).foldl (fun d (ix : Nat) =>
      updZ d (dy * iy + dx * ix)
        (le16 payload (2 * (iy * width + ix)))) d) dest

/-- The first-row reconstruction loop of `unpack_12bit_average` (pack.c
lines 308-318): left-neighbor prediction kept in the per-slice registers
`l k`. -/
def unpack_row0 (slices : Nat) (diff : Nat → Nat) (b : Nat → Int) (dx : Int) :
    Nat → Nat → (Nat → Nat) → (Int → Nat) → Nat → ((Nat → Nat) × (Int → Nat)) × Nat
  | 0, _, l, dest, i => ((l, dest), i)
  | n + 1, j, l, dest, i =>
    let x : Int := dx * j
    let l' := fun (k : Nat) =>
      if k < slices then delta_decode_12bit (diff (i + k)) (l k) else l k
    let w := fun (d : Int → Nat) (k : Nat) =>
      if k < slices then updZ d (b k + x) (l' k) else d
    unpack_row0 slices diff b dx n (j + 1) l' (w (w (w (w dest 0) 1) 2) 3)
      (i + slices)

/-- The inner column loop of the main reconstruction rows (pack.c lines
347-362): average prediction from the register (left) and the
already-written row above. -/
def unpack_rowy_cols (diff : Nat → Nat) (p : Nat → Int) (s : Nat → Bool)
    (active : Nat) (dx dy : Int) :
    Nat → Nat → (Nat → Nat) → (Int → Nat) → Nat → ((Nat → Nat) × (Int → Nat)) × Nat
  | 0, _, l, dest, i => ((l, dest), i)
  | n + 1, j, l, dest, i =>
    let x : Int := dx * j
    let l' := fun (k : Nat) =>
      if s k then
        delta_decode_12bit (diff (i + k)) (avgPred (l k) (dest (p k + x - dy)))
      else l k
    let w := fun (d : Int → Nat) (k : Nat) =>
      if s k then updZ d (p k + x) (l' k) else d
    unpack_rowy_cols diff p s active dx dy n (j + 1) l'
      (w (w (w (w dest 0) 1) 2) 3) (i + active)

/-- The main reconstruction row loop (pack.c lines 321-363). -/
def unpack_rows (width sheight hm : Nat) (diff : Nat → Nat) (dx dy : Int) :
    Nat → Nat → (Nat → Int) → (Nat → Nat) → (Int → Nat) → Nat → (Int → Nat)
  | 0, _, _, _, dest, _ => dest
  | n + 1, y, p, l, dest, i =>
    let s := fun (k : Nat) => sliceFlag sheight hm y k
    let active := rowActive sheight hm y
    let p' := fun (k : Nat) => p k + (if s k then dy else 0)
    let l' := fun (k : Nat) =>
      if s k then delta_decode_12bit (diff (i + k)) (dest (p' k - dy)) else l k
    let w := fun (d : Int → Nat) (k : Nat) =>
      if s k then updZ d (p' k) (l' k) else d
    let r := unpack_rowy_cols diff p' s active dx dy (width - 1) 1 l'
      (w (w (w (w dest 0) 1) 2) 3) (i + active)
    unpack_rows width sheight hm diff dx dy n (y + 1) p' r.1.1 r.1.2 r.2

/-- `unpack_12bit_average` (pack.c lines 239-366): dispatch on the payload
size (RLE fill / raw copy / FSE decode into the scratch buffer), then
mirror the prediction loops.  Returns `none` for the C return value 0,
otherwise the updated frame; the scratch buffer is threaded through. -/
def unpack_12bit_average (width height : Nat) (diff : Nat → Nat)
    (payload : List Nat) (src_size : Nat) (dest : Int → Nat) (dx dy : Int) :
    Option (Int → Nat) × (Nat → Nat) :=
  if height = 0 ∨ width = 0 then (none, diff)
  else
    let pixels := width * height
    let bytes := 2 * pixels
    let sheight := (height + 3) / 4
    let slices := min height 4
    let hm := height % 4
    let sb := 2 * slices
    let step2 := fun (diff : Nat → Nat) =>
      if sliceH sheight hm 0 + sliceH sheight hm 1 + sliceH sheight hm 2 +
          sliceH sheight hm 3 ≠ height then (none, diff)
      else
        let b : Nat → Int := fun k =>
          if k = 0 then 0
          else dy * (sliceH sheight hm 0 +
            (if 2 ≤ k then sliceH sheight hm 1 else 0) +
            (if 3 ≤ k then sliceH sheight hm 2 else 0))
        let l0 := fun (k : Nat) => if k < slices then le16 payload (2 * k) else 0
        let w := fun (d : Int → Nat) (k : Nat) =>
          if k < slices then updZ d (b k) (l0 k) else d
        let r0 := unpack_row0 slices diff b dx (width - 1) 1 l0
          (w (w (w (w dest 0) 1) 2) 3) slices
        (some (unpack_rows width sheight hm diff dx dy (sheight - 1) 1 b
          r0.1.1 r0.1.2 r0.2), diff)
    if src_size = 0 then (none, diff)
    else if src_size = sb + 2 then
      step2 (rleFill (le16 payload sb) (pixels - slices) slices diff)
    else if src_size = bytes then
      (some (rawTileRead width height payload dest dx dy), diff)
    else
      match FSE_decompressU16 (pixels - slices) (payload.drop sb) with
      | .error _ => (none, diff)
      | .ok syms => step2 (diffWrite syms slices diff)

/-! ## Frame-level pack and unpack (pack.c lines 373-445) -/

/-- A u32 little-endian tile-size table entry (pack.c lines 397-400). -/
def le32Bytes (n : Nat) : List Nat :=
  [n % 256, n / 256 % 256, n / 65536 % 256, n / 16777216 % 256]

/-- Reading a u32 little-endian table entry (pack.c lines 432-433). -/
def le32Val (src : List Nat) (pos : Nat) : Nat :=
  src.getD pos 0 + 256 * src.getD (pos + 1) 0 + 65536 * src.getD (pos + 2) 0 +
    16777216 * src.getD (pos + 3) 0

/-- The tile origins in raster order (the nested `ty`/`tx` loops of
pack.c lines 390-391). -/
def tileOrigins (width height twidth theight : Nat) : List (Nat × Nat) :=
  (List.range ((height + theight - 1) / theight)).flatMap (fun iy =>
    (List.range ((width + twidth - 1) / twidth)).map (fun ix =>
      (iy * theight, ix * twidth)))

/-- The per-tile loop of `pack_with_context`: accumulates the size table
entries and the payloads, failing if any tile fails. -/
def packTiles (ctx : pack_context_t) (src : Int → Nat) (dx dy : Int) :
    List (Nat × Nat) → (Nat → Nat) → List Nat → List Nat →
      Option (List Nat × List Nat) × (Nat → Nat)
  | [], diff, sizes, payloads => (some (sizes, payloads), diff)
  | (ty, tx) :: rest, diff, sizes, payloads =>
    let r := pack_12bit_average (min ctx.twidth (ctx.width - tx))
      (min ctx.theight (ctx.height - ty)) diff
      (shiftF src (ty * dy + tx * dx)) dx dy
    match r.1 with
    | none => (none, r.2)
    | some payload =>
      packTiles ctx src dx dy rest r.2 (sizes ++ le32Bytes payload.length)
        (payloads ++ payload)

/-- `pack_with_context` (pack.c lines 373-406): argument checks, then the
tile loop; the output is the tile-size table followed by the payloads, and
the returned count is the total byte length.  `none` models the C return
value 0. -/
def pack_with_context (ctx : pack_context_t) (src : Int → Nat) (dx dy : Int)
    (diff : Nat → Nat) : Option (Nat × List Nat) × (Nat → Nat) :=
  if ctx.bpp ≠ 12 then (none, diff)
  else if dx = 0 ∨ dy = 0 then (none, diff)
  else
    let r := packTiles ctx src dx dy
      (tileOrigins ctx.width ctx.height ctx.twidth ctx.theight) diff [] []
    match r.1 with
    | none => (none, r.2)
    | some (sizes, payloads) =>
      (some (sizes.length + payloads.length, sizes ++ payloads), r.2)

/-- The per-tile loop of `unpack_with_context` (pack.c lines 430-443):
read each size table entry, bound-check it against the remaining source,
and unpack the tile. -/
def unpackTiles (ctx : pack_context_t) (srcBytes : List Nat)
    (src_size : Nat) (dx dy : Int) :
    List (Nat × Nat) → Nat → Nat → (Nat → Nat) → (Int → Nat) →
      Option (Int → Nat) × (Nat → Nat)
  | [], _, _, diff, dest => (some dest, diff)
  | (ty, tx) :: rest, tile, src_pos, diff, dest =>
    let size := le32Val srcBytes (4 * tile)
    if src_size - src_pos < size then (none, diff)
    else
      let r := unpack_12bit_average (min ctx.twidth (ctx.width - tx))
        (min ctx.theight (ctx.height - ty)) diff
        ((srcBytes.drop src_pos).take size) size
        (shiftF dest (ty * dy + tx * dx)) dx dy
      match r.1 with
      | none => (none, r.2)
      | some destShifted =>
        unpackTiles ctx srcBytes src_size dx dy rest (tile + 1)
          (src_pos + size) r.2 (shiftF destShifted (-(ty * dy + tx * dx)))

/-- `unpack_with_context` (pack.c lines 412-445): argument checks, table
bound check, then the tile loop.  Returns the reconstructed frame
(`none` models the C return value 0). -/
def unpack_with_context (ctx : pack_context_t) (srcBytes : List Nat)
    (src_size : Nat) (dest : Int → Nat) (dx dy : Int) (diff : Nat → Nat) :
    Option (Int → Nat) × (Nat → Nat) :=
  if ctx.bpp ≠ 12 then (none, diff)
  else if src_size = 0 ∨ dx = 0 ∨ dy = 0 then (none, diff)
  else
    let src_pos := 4 * ((ctx.width + ctx.twidth - 1) / ctx.twidth) *
      ((ctx.height + ctx.theight - 1) / ctx.theight)
    if src_size < src_pos then (none, diff)
    else
      unpackTiles ctx srcBytes src_size dx dy
        (tileOrigins ctx.width ctx.height ctx.twidth ctx.theight) 0 src_pos
        diff dest

end Vidpak

/-- Claim C6: for all `p, q` in `[0, 2^12)`,
`delta_decode_12bit (delta_encode_12bit p q) q = p`: the 12-bit wrap-around
residual encoding is exactly inverted by the residual decoding. -/
theorem C6_delta_roundtrip (p q : Nat) (hp : p < 4096) (hq : q < 4096) :
    Vidpak.delta_decode_12bit (Vidpak.delta_encode_12bit p q) q = p := by
  unfold Vidpak.delta_encode_12bit Vidpak.delta_decode_12bit
  omega

/-- Witness for C6 at `p = 5`, `q = 4000`. -/
theorem C6_delta_roundtrip_witness :
    Vidpak.delta_decode_12bit (Vidpak.delta_encode_12bit 5 4000) 4000 = 5 :=
  C6_delta_roundtrip 5 4000 (by decide) (by decide)

/-- Counterexample to claim C2: `pack_create_context(4, 4, 13, 4, 4)` has
`bpp = 13 ≠ 12` yet returns a context (not null), and
`pack_create_context(4, 4, 12, 4, 3)` has `th mod 4 = 3 ≠ 0` yet also
returns a context. -/
theorem C2_counterexample :
    (Vidpak.pack_create_context 4 4 13 4 4).isSome = true ∧
      (Vidpak.pack_create_context 4 4 12 4 3).isSome = true := by
  decide

/-- Claim C2 (amended): `pack_create_context(W, H, bpp, tw, th)` returns null
exactly when some dimension is invalid: `W ≤ 0`, `H ≤ 0`, `bpp ≤ 0`,
`tw ≤ 0`, `th ≤ 0`, `tw > W`, or `th > H`.  Neither `bpp ≠ 12` (with
`bpp > 0`) nor `th mod 4 ≠ 0` is rejected at context creation (`bpp` is
checked by `pack_with_context`/`unpack_with_context` instead). -/
theorem C2_create_context_validation (w h bpp tw th : Int) :
    Vidpak.pack_create_context w h bpp tw th = none ↔
      (w ≤ 0 ∨ h ≤ 0 ∨ bpp ≤ 0 ∨ tw ≤ 0 ∨ th ≤ 0 ∨ tw > w ∨ th > h) := by
  unfold Vidpak.pack_create_context
  split_ifs with h1 h2 h3 <;> simp_all <;> omega

/-- Counterexample to claim C8: `tw = 4` does not divide `W = 6`, yet
`pack_create_context(6, 4, 12, 4, 4)` returns a context (not null). -/
theorem C8_counterexample :
    (Vidpak.pack_create_context 6 4 12 4 4).isSome = true := by
  decide

/-- Claim C8 (amended): `pack_create_context` does not reject tile
dimensions that fail to divide the frame: for any positive `W`, `H`, `bpp`
and any `0 < tw ≤ W`, `0 < th ≤ H` it returns a context, whether or not
`tw` divides `W` or `th` divides `H` (partial tiles are clipped by
`pack_with_context` via `min(tw, W-tx)` / `min(th, H-ty)` instead). -/
theorem C8_create_context_no_divisibility_check (w h bpp tw th : Int)
    (hw : 0 < w) (hh : 0 < h) (hb : 0 < bpp)
    (htw : 0 < tw) (htw2 : tw ≤ w) (hth : 0 < th) (hth2 : th ≤ h) :
    (Vidpak.pack_create_context w h bpp tw th).isSome = true := by
  unfold Vidpak.pack_create_context
  split
  · omega
  · split
    · omega
    · split
      · omega
      · rfl

/-- Witness for C8 (amended) at `W = 6`, `H = 4`, `bpp = 12`, `tw = 4`,
`th = 4` (where `tw` does not divide `W`). -/
theorem C8_create_context_no_divisibility_check_witness :
    (Vidpak.pack_create_context 6 4 12 4 4).isSome = true :=
  C8_create_context_no_divisibility_check 6 4 12 4 4
    (by decide) (by decide) (by decide) (by decide) (by decide)
    (by decide) (by decide)

/-- Claim C9: with `W = H = 4`, `tw = th = 4`, `bpp = 12` and the all-zero
4×4 frame, `pack_with_context` returns exactly 14 bytes: the u32 tile-size
table entry `10 00 00 00`, 8 zero seed bytes, and the 2-byte residual
`00 00`; `unpack_with_context` on those 14 bytes succeeds (returns 1) and
reproduces the all-zero frame. -/
theorem C9_zero_frame :
    (Vidpak.pack_with_context ⟨4, 4, 12, 4, 4⟩ (fun _ => 0) 1 4
        (fun _ => 0)).1 =
      some (14, [10, 0, 0, 0, 0, 0, 0, 0, 0, 0, 0, 0, 0, 0]) ∧
    ((Vidpak.unpack_with_context ⟨4, 4, 12, 4, 4⟩
        [10, 0, 0, 0, 0, 0, 0, 0, 0, 0, 0, 0, 0, 0] 14 (fun _ => 999) 1 4
        (fun _ => 0)).1.map
      (fun d => (List.range 16).map (fun i => d (i : Int)))) =
      some (List.replicate 16 0) := by
  decide

/-- Counterexample to claim C3: the all-4096 4×4 frame (every pixel
`≥ 4096`) under the valid context `W = H = tw = th = 4`, `bpp = 12` does
not make `pack_with_context` fail: the result is not the failure value. -/
theorem C3_counterexample :
    ((Vidpak.pack_with_context ⟨4, 4, 12, 4, 4⟩ (fun _ => 4096) 1 4
        (fun _ => 0)).1).isSome = true := by
  decide

/-- Claim C3 (amended): `pack_with_context` performs no pixel-range
validation: residuals are reduced modulo 2^12 and seed pixels are stored
with the high nibble masked, so a frame containing values `≥ 4096` can
pack successfully.  The all-4096 4×4 frame packs to the same 14 bytes as
the all-zero frame (returning 14, not 0), silently dropping the high
bits. -/
theorem C3_no_range_check :
    (Vidpak.pack_with_context ⟨4, 4, 12, 4, 4⟩ (fun _ => 4096) 1 4
        (fun _ => 0)).1 =
      some (14, [10, 0, 0, 0, 0, 0, 0, 0, 0, 0, 0, 0, 0, 0]) := by
  decide

/-! ### Scratch-buffer independence of the packer (towards claim C10) -/

namespace Vidpak

/-- The first-row residual loop advances the scratch offset by `slices`
per column, independently of the scratch contents. -/
theorem pack_row0_snd (slices : Nat) (src : Int → Nat) (b : Nat → Int)
    (dx : Int) :
    ∀ (n j o : Nat) (d : Nat → Nat),
      (pack_row0 slices src b dx n j d o).2 = o + slices * n := by
  intro n
  induction n with
  | zero => intro j o d; simp [pack_row0]
  | succ n ih => intro j o d; simp only [pack_row0]; rw [ih]; ring

/-- Two runs of the first-row residual loop from scratch buffers that
agree on `[lo, o)` agree on `[lo, o + slices·n)` afterwards (the residual
values depend only on the source pixels, and the loop writes every index
of the block it walks). -/
theorem pack_row0_agree (slices : Nat) (src : Int → Nat) (b : Nat → Int)
    (dx : Int) (hsl : 0 < slices) (hsl4 : slices ≤ 4) :
    ∀ (n j o lo : Nat) (d1 d2 : Nat → Nat), lo ≤ o →
      (∀ x, lo ≤ x → x < o → d1 x = d2 x) →
      ∀ x, lo ≤ x → x < o + slices * n →
        (pack_row0 slices src b dx n j d1 o).1 x =
          (pack_row0 slices src b dx n j d2 o).1 x := by
  intro n
  induction n with
  | zero =>
    intro j o lo d1 d2 hlo hag x hx1 hx2
    simp only [pack_row0]
    exact hag x hx1 (by omega)
  | succ n ih =>
    intro j o lo d1 d2 hlo hag x hx1 hx2
    simp only [pack_row0]
    rw [Nat.mul_succ] at hx2
    refine ih (j + 1) (o + slices) lo _ _ (by omega) ?_ x hx1 (by omega)
    intro z hz1 hz2
    simp only [upd, ite_apply]
    split_ifs <;> first | rfl | exact hag z hz1 (by omega)

/-- The main-row column loop advances the scratch offset by `active`
per column, independently of the scratch contents. -/
theorem pack_rowy_cols_snd (src : Int → Nat) (p : Nat → Int) (s : Nat → Bool)
    (active : Nat) (dx dy : Int) :
    ∀ (n j o : Nat) (d : Nat → Nat),
      (pack_rowy_cols src p s active dx dy n j d o).2 = o + active * n := by
  intro n
  induction n with
  | zero => intro j o d; simp [pack_rowy_cols]
  | succ n ih => intro j o d; simp only [pack_rowy_cols]; rw [ih]; ring

set_option maxHeartbeats 2000000 in
/-- Two runs of the main-row column loop from scratch buffers that agree
on `[lo, o)` agree on `[lo, o + active·n)` afterwards, provided the active
slices form a prefix `0 .. active - 1`. -/
theorem pack_rowy_cols_agree (src : Int → Nat) (p : Nat → Int)
    (s : Nat → Bool) (active : Nat) (dx dy : Int) (hact : active ≤ 4)
    (hpre : ∀ k, k < 4 → ((s k = true) ↔ k < active)) :
    ∀ (n j o lo : Nat) (d1 d2 : Nat → Nat), lo ≤ o →
      (∀ x, lo ≤ x → x < o → d1 x = d2 x) →
      ∀ x, lo ≤ x → x < o + active * n →
        (pack_rowy_cols src p s active dx dy n j d1 o).1 x =
          (pack_rowy_cols src p s active dx dy n j d2 o).1 x := by
  intro n
  induction n with
  | zero =>
    intro j o lo d1 d2 hlo hag x hx1 hx2
    simp only [pack_rowy_cols]
    exact hag x hx1 (by omega)
  | succ n ih =>
    intro j o lo d1 d2 hlo hag x hx1 hx2
    rw [Nat.mul_succ] at hx2
    simp only [pack_rowy_cols]
    refine ih (j + 1) (o + active) lo _ _ (by omega) ?_ x hx1 (by omega)
    intro z hz1 hz2
    have h0 := hpre 0 (by omega)
    have h1 := hpre 1 (by omega)
    have h2 := hpre 2 (by omega)
    have h3 := hpre 3 (by omega)
    simp only [upd, ite_apply, h0, h1, h2, h3]
    split_ifs <;> first | rfl | exact hag z hz1 (by omega)

/-- The slice-active flags of a main row form a prefix of the slices:
`sliceFlag k` holds exactly when `k < rowActive` (for `hm = height mod 4 <
4`). -/
theorem sliceFlag_prefix (sheight hm y k : Nat) (hhm : hm < 4) (hk : k < 4) :
    (sliceFlag sheight hm y k = true) ↔ k < rowActive sheight hm y := by
  interval_cases hm <;> interval_cases k <;>
    by_cases hA : y < sheight - 1 <;>
      simp [sliceFlag, rowActive, hA]

/-- A main row processes at most four slices. -/
theorem rowActive_le4 (sheight hm y : Nat) : rowActive sheight hm y ≤ 4 := by
  unfold rowActive
  split_ifs <;> omega

/-- The main row loop advances the scratch offset by `width · active`
per row, independently of the scratch contents. -/
theorem pack_rows_snd (width sheight hm : Nat) (src : Int → Nat)
    (dx dy : Int) (hw : 0 < width) :
    ∀ (n y : Nat) (p : Nat → Int) (o : Nat) (d : Nat → Nat),
      (pack_rows width sheight hm src dx dy n y p d o).2 =
        o + width * activeSumF sheight hm y n := by
  intro n
  induction n with
  | zero => intro y p o d; simp [pack_rows, activeSumF]
  | succ n ih =>
    intro y p o d
    simp only [pack_rows]
    rw [ih, pack_rowy_cols_snd, activeSumF]
    have hw1 : width - 1 + 1 = width := by omega
    have h1 : rowActive sheight hm y * (width - 1) + rowActive sheight hm y =
        width * rowActive sheight hm y := by
      calc rowActive sheight hm y * (width - 1) + rowActive sheight hm y =
          rowActive sheight hm y * (width - 1 + 1) := by rw [Nat.mul_succ]
        _ = width * rowActive sheight hm y := by rw [hw1, Nat.mul_comm]
    rw [Nat.mul_add]
    omega

set_option maxHeartbeats 2000000 in
/-- Two runs of the main row loop from scratch buffers that agree on
`[lo, o)` agree on `[lo, o + width · activeSum)` afterwards. -/
theorem pack_rows_agree (width sheight hm : Nat) (src : Int → Nat)
    (dx dy : Int) (hw : 0 < width) (hhm : hm < 4) :
    ∀ (n y : Nat) (p : Nat → Int) (o lo : Nat) (d1 d2 : Nat → Nat), lo ≤ o →
      (∀ x, lo ≤ x → x < o → d1 x = d2 x) →
      ∀ x, lo ≤ x → x < o + width * activeSumF sheight hm y n →
        (pack_rows width sheight hm src dx dy n y p d1 o).1 x =
          (pack_rows width sheight hm src dx dy n y p d2 o).1 x := by
  intro n
  induction n with
  | zero =>
    intro y p o lo d1 d2 hlo hag x hx1 hx2
    simp only [pack_rows]
    simp only [activeSumF, Nat.mul_zero] at hx2
    exact hag x hx1 (by omega)
  | succ n ih =>
    intro y p o lo d1 d2 hlo hag x hx1 hx2
    have hact4 := rowActive_le4 sheight hm y
    have hmulA : rowActive sheight hm y * (width - 1) + rowActive sheight hm y =
        width * rowActive sheight hm y := by
      calc rowActive sheight hm y * (width - 1) + rowActive sheight hm y =
          rowActive sheight hm y * (width - 1 + 1) := by rw [Nat.mul_succ]
        _ = width * rowActive sheight hm y := by
            rw [show width - 1 + 1 = width by omega, Nat.mul_comm]
    rw [activeSumF, Nat.mul_add] at hx2
    simp only [pack_rows]
    simp only [pack_rowy_cols_snd]
    refine ih (y + 1) _ _ lo _ _ (by omega) ?_ x hx1 (by omega)
    refine pack_rowy_cols_agree src _ _ _ dx dy hact4
      (fun k hk => sliceFlag_prefix sheight hm y k hhm hk) (width - 1) 1
      (o + rowActive sheight hm y) lo _ _ (by omega) ?_
    intro z hz1 hz2
    have hp0 := sliceFlag_prefix sheight hm y 0 hhm (by omega)
    have hp1 := sliceFlag_prefix sheight hm y 1 hhm (by omega)
    have hp2 := sliceFlag_prefix sheight hm y 2 hhm (by omega)
    have hp3 := sliceFlag_prefix sheight hm y 3 hhm (by omega)
    simp only [upd, ite_apply, hp0, hp1, hp2, hp3]
    split_ifs <;> first | rfl | exact hag z hz1 (by omega)

/-- The slice heights always sum to the tile height (the defensive check
of pack.c line 131 never fires). -/
theorem sliceH_sum_eq (height : Nat) :
    sliceH ((height + 3) / 4) (height % 4) 0 +
      sliceH ((height + 3) / 4) (height % 4) 1 +
      sliceH ((height + 3) / 4) (height % 4) 2 +
      sliceH ((height + 3) / 4) (height % 4) 3 = height := by
  unfold sliceH
  split_ifs <;> omega

/-- Closed form of the per-row active count. -/
theorem rowActive_closed (sheight hm y : Nat) (hhm : hm < 4) :
    rowActive sheight hm y =
      if y < sheight - 1 ∨ hm = 0 then 4 else hm := by
  interval_cases hm <;> by_cases hA : y < sheight - 1 <;>
    simp [rowActive, sliceFlag, hA]

/-- Closed form of the active-count total over the main rows
`y .. sheight - 1`. -/
theorem activeSumF_closed (sheight hm : Nat) (hhm : hm < 4) :
    ∀ (n y : Nat), y + n = sheight → 1 ≤ y →
      activeSumF sheight hm y n =
        if n = 0 then 0 else 4 * (n - 1) + (if hm = 0 then 4 else hm) := by
  intro n
  induction n with
  | zero => intro y hy h1; simp [activeSumF]
  | succ n ih =>
    intro y hy h1
    rw [activeSumF, rowActive_closed sheight hm y hhm]
    cases n with
    | zero =>
      rw [activeSumF]
      have : ¬ (y < sheight - 1) := by omega
      simp [this]
    | succ m =>
      rw [ih (y + 1) (by omega) (by omega)]
      have : y < sheight - 1 := by omega
      simp only [this, true_or, if_true]
      split_ifs <;> first | omega | (exfalso; assumption)

/-- Slices plus main-row actives account for every row of the tile. -/
theorem activeSum_height (height : Nat) (hh : 0 < height) :
    min height 4 +
      activeSumF ((height + 3) / 4) (height % 4) 1 ((height + 3) / 4 - 1) =
      height := by
  rcases Nat.lt_or_ge height 4 with h4 | h4
  · have hsh : (height + 3) / 4 = 1 := by omega
    rw [hsh]
    simp [activeSumF]
    omega
  · rw [activeSumF_closed ((height + 3) / 4) (height % 4) (by omega)
      ((height + 3) / 4 - 1) 1 (by omega) (by omega)]
    split_ifs <;> omega

/-- The composed residual phases (first row, then main rows) of
`pack_12bit_average` leave the scratch buffer with the same contents on
the residual range `[slices, width·height)` regardless of its initial
contents. -/
theorem pack_phases_agree (width height : Nat) (hw : 0 < width)
    (hh : 0 < height) (src : Int → Nat) (dx dy : Int) (b : Nat → Int)
    (d1 d2 : Nat → Nat) :
    ∀ x, min height 4 ≤ x → x < width * height →
      (pack_rows width ((height + 3) / 4) (height % 4) src dx dy
        ((height + 3) / 4 - 1) 1 b
        (pack_row0 (min height 4) src b dx (width - 1) 1 d1 (min height 4)).1
        (pack_row0 (min height 4) src b dx (width - 1) 1 d1
          (min height 4)).2).1 x =
      (pack_rows width ((height + 3) / 4) (height % 4) src dx dy
        ((height + 3) / 4 - 1) 1 b
        (pack_row0 (min height 4) src b dx (width - 1) 1 d2 (min height 4)).1
        (pack_row0 (min height 4) src b dx (width - 1) 1 d2
          (min height 4)).2).1 x := by
  intro x hx1 hx2
  have hsl : 0 < min height 4 := by omega
  have hsl4 : min height 4 ≤ 4 := by omega
  have hmul : min height 4 + min height 4 * (width - 1) =
      min height 4 * width := by
    calc min height 4 + min height 4 * (width - 1) =
        min height 4 * (width - 1 + 1) := by rw [Nat.mul_succ]; ring
      _ = min height 4 * width := by rw [show width - 1 + 1 = width by omega]
  have hsum := activeSum_height height hh
  rw [pack_row0_snd, pack_row0_snd]
  refine pack_rows_agree width ((height + 3) / 4) (height % 4) src dx dy hw
    (by omega) ((height + 3) / 4 - 1) 1 b _ (min height 4) _ _ (by omega)
    ?_ x hx1 ?_
  · exact pack_row0_agree (min height 4) src b dx hsl hsl4 (width - 1) 1
      (min height 4) (min height 4) d1 d2 (by omega) (fun z hz1 hz2 => by omega)
  · have hexp : width * (min height 4 +
        activeSumF ((height + 3) / 4) (height % 4) 1 ((height + 3) / 4 - 1)) =
        width * height := by rw [hsum]
    rw [Nat.mul_add] at hexp
    have : min height 4 * width = width * min height 4 := Nat.mul_comm _ _
    omega

/-- The payload produced by the compression tail depends only on the
residual range `[slices, pixels)` of the scratch buffer. -/
theorem pack_12bit_tail_fst_indep (bytes sb slices pixels : Nat)
    (raw seeds : List Nat) (R1 R2 : Nat → Nat)
    (hag : ∀ x, slices ≤ x → x < pixels → R1 x = R2 x) :
    (pack_12bit_tail bytes sb slices pixels raw seeds R1).1 =
      (pack_12bit_tail bytes sb slices pixels raw seeds R2).1 := by
  unfold pack_12bit_tail
  have hsym : (List.range (pixels - slices)).map (fun i => R1 (slices + i)) =
      (List.range (pixels - slices)).map (fun i => R2 (slices + i)) := by
    apply List.map_congr_left
    intro a ha
    exact hag (slices + a) (by omega)
      (by have := List.mem_range.mp ha; omega)
  rw [hsym]
  cases hfse : FSE_compressU16 (bytes - sb)
      ((List.range (pixels - slices)).map (fun i => R2 (slices + i))) 4095 0 with
  | error e => cases e <;> rfl
  | uncompressible => rfl
  | compressed body => rfl
  | rle =>
    by_cases hsp : slices < pixels
    · simp only [hag slices (Nat.le_refl _) hsp]
    · exfalso
      rw [show pixels - slices = 0 by omega] at hfse
      simp [FSE_compressU16] at hfse

/-- The payload of `pack_12bit_average` does not depend on the initial
contents of the scratch buffer. -/
theorem pack_12bit_average_fst_indep (width height : Nat) (src : Int → Nat)
    (dx dy : Int) (d1 d2 : Nat → Nat) :
    (pack_12bit_average width height d1 src dx dy).1 =
      (pack_12bit_average width height d2 src dx dy).1 := by
  simp only [pack_12bit_average]
  split_ifs with h1 h2
  · rfl
  · rfl
  · apply pack_12bit_tail_fst_indep
    intro x hx1 hx2
    exact pack_phases_agree width height (by omega) (by omega) src dx dy _
      d1 d2 x hx1 hx2

/-- The tile loop of the packer produces the same size table and payloads
from any initial scratch-buffer contents. -/
theorem packTiles_fst_indep (ctx : pack_context_t) (src : Int → Nat)
    (dx dy : Int) :
    ∀ (tiles : List (Nat × Nat)) (d1 d2 : Nat → Nat)
      (sizes payloads : List Nat),
      (packTiles ctx src dx dy tiles d1 sizes payloads).1 =
        (packTiles ctx src dx dy tiles d2 sizes payloads).1 := by
  intro tiles
  induction tiles with
  | nil => intro d1 d2 sizes payloads; rfl
  | cons t rest ih =>
    intro d1 d2 sizes payloads
    obtain ⟨ty, tx⟩ := t
    simp only [packTiles]
    rw [pack_12bit_average_fst_indep (min ctx.twidth (ctx.width - tx))
      (min ctx.theight (ctx.height - ty)) (shiftF src (ty * dy + tx * dx))
      dx dy d1 d2]
    cases hp : (pack_12bit_average (min ctx.twidth (ctx.width - tx))
        (min ctx.theight (ctx.height - ty)) d2
        (shiftF src (ty * dy + tx * dx)) dx dy).1 with
    | none => rfl
    | some payload => exact ih _ _ _ _

end Vidpak

/-- Claim C10: `pack_with_context` is deterministic: two calls with equal
context parameters (width, height, bpp, twidth, theight), equal source
pixel contents, and equal strides `dx`, `dy` return the same byte count
and byte-for-byte identical output — in particular the result does not
depend on the contents of the context's scratch buffer (every residual the
compressor reads was written earlier in the same call). -/
theorem C10_pack_deterministic (ctx ctx' : Vidpak.pack_context_t)
    (src src' : Int → Nat) (dx dy dx' dy' : Int) (d d' : Nat → Nat)
    (hctx : ctx = ctx') (hsrc : ∀ i, src i = src' i) (hdx : dx = dx')
    (hdy : dy = dy') :
    (Vidpak.pack_with_context ctx src dx dy d).1 =
      (Vidpak.pack_with_context ctx' src' dx' dy' d').1 := by
  subst hctx
  subst hdx
  subst hdy
  have hs : src = src' := funext hsrc
  subst hs
  unfold Vidpak.pack_with_context
  split_ifs with h1 h2
  · rfl
  · rfl
  · dsimp only
    rw [Vidpak.packTiles_fst_indep ctx src dx dy
      (Vidpak.tileOrigins ctx.width ctx.height ctx.twidth ctx.theight)
      d d' [] []]
    cases (Vidpak.packTiles ctx src dx dy
        (Vidpak.tileOrigins ctx.width ctx.height ctx.twidth ctx.theight)
        d' [] []).1 with
    | none => rfl
    | some sp => rfl

/-- Witness for C10 at the 4×4 all-zero configuration with two different
scratch buffers. -/
theorem C10_pack_deterministic_witness :
    (Vidpak.pack_with_context ⟨4, 4, 12, 4, 4⟩ (fun _ => 0) 1 4
        (fun _ => 0)).1 =
      (Vidpak.pack_with_context ⟨4, 4, 12, 4, 4⟩ (fun _ => 0) 1 4
        (fun _ => 7)).1 :=
  C10_pack_deterministic ⟨4, 4, 12, 4, 4⟩ ⟨4, 4, 12, 4, 4⟩ (fun _ => 0)
    (fun _ => 0) 1 4 1 4 (fun _ => 0) (fun _ => 7) rfl (fun _ => rfl) rfl rfl


/-! ### Length facts for the payload shapes (claims C4, C5) -/

namespace Vidpak

/-- `toBitsLSB` produces exactly `n` bits. -/
theorem toBitsLSB_length (n : Nat) : ∀ v, (toBitsLSB n v).length = n := by
  induction n with
  | zero => intro v; rfl
  | succ n ih => intro v; simp [toBitsLSB, ih]

/-- `bytesOfBits` produces `⌈bits/8⌉` bytes. -/
theorem bytesOfBits_length (bs : List Bool) :
    (bytesOfBits bs).length = (bs.length + 7) / 8 := by
  generalize hn : bs.length = n
  induction n using Nat.strong_induction_on generalizing bs with
  | _ n ih =>
    cases bs with
    | nil =>
      have h0 : n = 0 := by simpa using hn.symm
      subst h0
      simp [bytesOfBits]
    | cons b rest =>
      rw [bytesOfBits]
      simp only [List.length_cons] at hn
      simp only [List.length_cons]
      rw [ih ((rest.length + 1) - 8) (by omega) _ (by simp)]
      omega

/-- A sum of a constant function over a list. -/
theorem sum_map_const_list {α : Type} (l : List α) (c : Nat) :
    (l.map (fun _ => c)).sum = l.length * c := by
  induction l with
  | nil => simp
  | cons a t ih => simp [ih]; ring

/-- Length of a `flatMap` whose pieces all have length `c`. -/
theorem flatMap_const_length {α β : Type} (l : List α) (g : α → List β)
    (c : Nat) (hg : ∀ a ∈ l, (g a).length = c) :
    (l.flatMap g).length = l.length * c := by
  rw [List.length_flatMap]
  have hpt : ∀ a ∈ l, (List.length ∘ g) a = c := by
    intro a ha
    rw [Function.comp_apply, hg a ha]
  rw [List.map_congr_left hpt, sum_map_const_list]

/-- The raw fallback payload is exactly `2·w·h` bytes. -/
theorem rawTileBytes_length (w h : Nat) (src : Int → Nat) (dx dy : Int) :
    (rawTileBytes w h src dx dy).length = 2 * (w * h) := by
  unfold rawTileBytes
  refine (flatMap_const_length _ _ (w * 2) ?_).trans ?_
  · intro iy _
    refine (flatMap_const_length _ _ 2 ?_).trans ?_
    · exact fun ix _ => rfl
    · rw [List.length_range]
  · rw [List.length_range]; ring

/-- The seed block is exactly `2·slices` bytes. -/
theorem seedBytes_length (slices : Nat) (src : Int → Nat) (b : Nat → Int) :
    (seedBytes slices src b).length = 2 * slices := by
  unfold seedBytes
  refine (flatMap_const_length _ _ 2 ?_).trans ?_
  · exact fun k _ => rfl
  · rw [List.length_range]; ring

end Vidpak

namespace Vidpak

/-- The chosen table log is always in `[5, 13]`. -/
theorem FSE_optimalTableLog_bounds (a b c : Nat) :
    5 ≤ FSE_optimalTableLog a b c ∧ FSE_optimalTableLog a b c ≤ 13 := by
  unfold FSE_optimalTableLog FSE_minTableLog FSE_MIN_TABLELOG FSE_MAX_TABLELOG
    FSE_DEFAULT_TABLELOG
  dsimp only
  omega

/-- A successful `BIT_closeCStream` returns `⌈(bits+1)/8⌉` and a byte list
of exactly that length. -/
theorem BIT_closeCStream_spec (cap : Nat) (bits : List Bool) (n : Nat)
    (bytes : List Nat) (h : BIT_closeCStream cap bits = (n, bytes))
    (hn : n ≠ 0) : n = (bits.length + 8) / 8 ∧ bytes.length = n := by
  unfold BIT_closeCStream at h
  dsimp only at h
  split_ifs at h with hov
  · exact absurd (congrArg Prod.fst h).symm (by simpa using hn)
  · injection h with hfst hsnd
    subst hfst
    subst hsnd
    constructor
    · rw [List.length_append]
      simp
      omega
    · rw [bytesOfBits_length]

/-- Flushing a state appends exactly `tableLog` bits. -/
theorem FSE_flushCState_length (ct : FSE_CTableU16) (st : Nat)
    (bits : List Bool) :
    (FSE_flushCState ct st bits).length = bits.length + ct.tableLog := by
  simp [FSE_flushCState, toBitsLSB_length]

/-- When the encode loop succeeds (nonzero return), the body is at least
2 bytes (the two flushed states and the sentinel) and the returned size
is the body length. -/
theorem FSE_compressU16_usingCTable_ok (cap : Nat) (src : List Nat)
    (ct : FSE_CTableU16) (htl : 4 ≤ ct.tableLog)
    (hr : (FSE_compressU16_usingCTable cap src ct).1 ≠ 0) :
    2 ≤ (FSE_compressU16_usingCTable cap src ct).2.length ∧
      (FSE_compressU16_usingCTable cap src ct).2.length =
        (FSE_compressU16_usingCTable cap src ct).1 := by
  unfold FSE_compressU16_usingCTable at hr ⊢
  split_ifs at hr ⊢ with h1 h2
  · simp at hr
  · dsimp only at hr ⊢
    rcases hclose : BIT_closeCStream cap
        (FSE_flushCState ct (FSE_encodeBody ct src).1
          (FSE_flushCState ct (FSE_encodeBody ct src).2.1
            (FSE_encodeBody ct src).2.2)) with ⟨n, bytes⟩
    rw [hclose] at hr
    simp only at hr ⊢
    have hspec := BIT_closeCStream_spec _ _ _ _ hclose hr
    rw [FSE_flushCState_length, FSE_flushCState_length] at hspec
    omega
  · simp at hr

end Vidpak

namespace Vidpak

/-- A successful NCount header is at least one byte and fits the buffer. -/
theorem FSE_writeNCount_ok (maxDstSize : Nat) (norm : List Nat)
    (tableLog : Nat) (header : List Nat)
    (h : FSE_writeNCount maxDstSize norm tableLog = .ok header) :
    1 ≤ header.length ∧ header.length ≤ maxDstSize := by
  unfold FSE_writeNCount at h
  dsimp only at h
  split_ifs at h with hgt
  injection h with h
  subst h
  rw [bytesOfBits_length]
  rw [bytesOfBits_length] at hgt
  have : (toBitsLSB 4 (tableLog - 5) ++
      writeNCountLoop (2 ^ tableLog) norm).length =
      4 + (writeNCountLoop (2 ^ tableLog) norm).length := by
    rw [List.length_append, toBitsLSB_length]
  omega

/-- A `.rle` outcome of `FSE_compressU16` needs a non-empty source. -/
theorem FSE_compressU16_rle_nonempty (cap : Nat) (src : List Nat)
    (msv tl : Nat) (h : FSE_compressU16 cap src msv tl = .rle) :
    1 ≤ src.length := by
  by_cases h0 : src.length = 0
  · rw [FSE_compressU16, if_pos h0] at h
    exact absurd h (by simp)
  · omega

/-- A `.compressed` outcome of `FSE_compressU16` carries at least 3 bytes
(one header byte, two body bytes) and strictly fewer than
`2·(srcSize - 1)` bytes (the compressibility check). -/
theorem FSE_compressU16_body_compressed_bounds (cap srcSize : Nat)
    (src : List Nat) (msv tl0 : Nat) (bytes : List Nat)
    (h : FSE_compressU16_body cap srcSize src msv tl0 = .compressed bytes) :
    3 ≤ bytes.length ∧ bytes.length < (srcSize - 1) * 2 := by
  unfold FSE_compressU16_body at h
  dsimp only at h
  revert h
  cases hnorm : FSE_normalizeCount (FSE_optimalTableLog tl0 srcSize msv)
      ((List.range (msv + 1)).map (fun s => src.count s)) srcSize with
  | error e => intro h; exact absurd h (by simp)
  | ok norm =>
    dsimp only
    cases hhdr : FSE_writeNCount cap norm
        (FSE_optimalTableLog tl0 srcSize msv) with
    | error e => intro h; exact absurd h (by simp)
    | ok header =>
      dsimp only
      split_ifs with h5 h6
      · intro h; exact absurd h (by simp)
      · intro h; exact absurd h (by simp)
      · intro h
        injection h with h
        subst h
        have hopt := FSE_optimalTableLog_bounds tl0 srcSize msv
        have hct := FSE_compressU16_usingCTable_ok (cap - header.length)
          src ⟨FSE_optimalTableLog tl0 srcSize msv, norm⟩ (by simp; omega) h5
        have hhdrlen := FSE_writeNCount_ok _ _ _ _ hhdr
        rw [List.length_append]
        omega

/-- A `.compressed` outcome of `FSE_compressU16` carries at least 3 bytes
(one header byte, two body bytes) and strictly fewer than
`2·(srcSize - 1)` bytes (the compressibility check). -/
theorem FSE_compressU16_compressed_bounds (cap : Nat) (src : List Nat)
    (msv tl : Nat) (bytes : List Nat)
    (h : FSE_compressU16 cap src msv tl = .compressed bytes) :
    3 ≤ bytes.length ∧ bytes.length < (src.length - 1) * 2 := by
  unfold FSE_compressU16 at h
  dsimp only at h
  split_ifs at h <;>
    first
      | exact absurd h (by simp)
      | (split at h <;>
          first
            | exact absurd h (by simp)
            | (split_ifs at h <;>
                first
                  | exact absurd h (by simp)
                  | exact FSE_compressU16_body_compressed_bounds _ _ _ _ _ _ h))

end Vidpak

namespace Vidpak

/-- Shape analysis of the compression tail for a full-height tile
(`slices = 4`): raw fallback of exactly `2·pixels` bytes, RLE of exactly
10 bytes, or an FSE payload of length in `[11, 2·pixels)`. -/
theorem pack_12bit_tail_shape (pixels slices : Nat) (raw seeds : List Nat)
    (diff : Nat → Nat) (payload : List Nat)
    (h : (pack_12bit_tail (2 * pixels) (2 * slices) slices pixels raw seeds
      diff).1 = some payload)
    (hraw : raw.length = 2 * pixels) (hseeds : seeds.length = 2 * slices)
    (hslices : slices = 4) (hpx4 : pixels % 4 = 0) :
    payload.length = 2 * pixels ∨
      (payload.length = 10 ∧ 10 < 2 * pixels) ∨
      (11 ≤ payload.length ∧ payload.length < 2 * pixels) := by
  subst hslices
  unfold pack_12bit_tail at h
  revert h
  cases hfse : FSE_compressU16 (2 * pixels - 2 * 4)
      ((List.range (pixels - 4)).map (fun i => diff (4 + i))) 4095 0 with
  | error e =>
    cases e <;> intro h <;> simp only at h
    case dstSize_tooSmall =>
      injection h with h
      subst h
      exact Or.inl hraw
    all_goals exact absurd h (by simp)
  | rle =>
    intro h
    simp only at h
    injection h with h
    subst h
    have hne := FSE_compressU16_rle_nonempty _ _ _ _ hfse
    rw [List.length_map, List.length_range] at hne
    refine Or.inr (Or.inl ⟨?_, by omega⟩)
    rw [List.length_append, hseeds]
    rfl
  | uncompressible =>
    intro h
    simp only at h
    injection h with h
    subst h
    exact Or.inl hraw
  | compressed body =>
    intro h
    simp only at h
    injection h with h
    subst h
    have hb := FSE_compressU16_compressed_bounds _ _ _ _ _ hfse
    rw [List.length_map, List.length_range] at hb
    refine Or.inr (Or.inr ⟨?_, ?_⟩) <;> rw [List.length_append, hseeds] <;>
      omega

end Vidpak

namespace Vidpak

/-- Shape analysis of a produced tile payload (helper shared by the claims
about payload sizes): raw fallback, RLE, or FSE with the length bounds. -/
theorem pack_12bit_average_shape (w h : Nat) (d : Nat → Nat)
    (src : Int → Nat) (dx dy : Int) (payload : List Nat) (hw : 0 < w)
    (hh : 0 < h) (hh4 : h % 4 = 0)
    (hp : (pack_12bit_average w h d src dx dy).1 = some payload) :
    payload.length = 2 * (w * h) ∨
      (payload.length = 10 ∧ 10 < 2 * (w * h)) ∨
      (11 ≤ payload.length ∧ payload.length < 2 * (w * h)) := by
  unfold pack_12bit_average at hp
  dsimp only at hp
  split_ifs at hp with h1 h2
  have hmin : min h 4 = 4 := by omega
  rw [show h ⊓ 4 = 4 from hmin] at hp
  have hpx4 : (w * h) % 4 = 0 := by
    obtain ⟨k, hk⟩ := Nat.dvd_of_mod_eq_zero hh4
    have : w * h = 4 * (w * k) := by rw [hk]; ring
    rw [this]
    exact Nat.mul_mod_right 4 _
  exact pack_12bit_tail_shape (w * h) 4 _ _ _ payload hp
    (rawTileBytes_length w h src dx dy)
    (by rw [seedBytes_length]) rfl hpx4

end Vidpak

/-- Claim C5: on a valid tile (`0 < tw`, `0 < th`, `th` a multiple of 4),
every payload emitted by the tile packer has one of three
length-disambiguated shapes: the raw fallback is exactly `2·tw·th` bytes,
the RLE payload is exactly 10 bytes (and then `2·tw·th > 10`), and the FSE
payload has a length in `[11, 2·tw·th)` — in particular it is never 10
(`FSE_compressU16` never returns 2 on the success path: the header is at
least 1 byte and the closed bitstream at least 2) and never `2·tw·th`, so
the three cases are mutually exclusive. -/
theorem C5_payload_shapes (w h : Nat) (d : Nat → Nat) (src : Int → Nat)
    (dx dy : Int) (payload : List Nat) (hw : 0 < w) (hh : 0 < h)
    (hh4 : h % 4 = 0)
    (hp : (Vidpak.pack_12bit_average w h d src dx dy).1 = some payload) :
    payload.length = 2 * (w * h) ∨
      (payload.length = 10 ∧ 10 < 2 * (w * h)) ∨
      (11 ≤ payload.length ∧ payload.length < 2 * (w * h)) :=
  Vidpak.pack_12bit_average_shape w h d src dx dy payload hw hh hh4 hp

/-- Witness for C5 at the all-zero 4×4 tile (RLE shape, 10 bytes). -/
theorem C5_payload_shapes_witness :
    [0, 0, 0, 0, 0, 0, 0, 0, 0, 0].length = 2 * (4 * 4) ∨
      ([0, 0, 0, 0, 0, 0, 0, 0, 0, 0].length = 10 ∧ 10 < 2 * (4 * 4)) ∨
      (11 ≤ [0, 0, 0, 0, 0, 0, 0, 0, 0, 0].length ∧
        [0, 0, 0, 0, 0, 0, 0, 0, 0, 0].length < 2 * (4 * 4)) :=
  C5_payload_shapes 4 4 (fun _ => 0) (fun _ => 0) 1 4
    [0, 0, 0, 0, 0, 0, 0, 0, 0, 0] (by decide) (by decide) (by decide)
    (by decide)

namespace Vidpak

/-- Exact division makes the ceiling division exact. -/
theorem ceil_div_exact (W tw : Nat) (htw : 0 < tw) (h : tw ∣ W) :
    (W + tw - 1) / tw = W / tw := by
  obtain ⟨a, rfl⟩ := h
  rw [show tw * a + tw - 1 = tw * a + (tw - 1) by omega,
    Nat.mul_add_div htw, Nat.div_eq_of_lt (by omega),
    Nat.mul_div_cancel_left a htw]
  omega

/-- The number of tiles in raster order. -/
theorem tileOrigins_length (W H tw th : Nat) :
    (tileOrigins W H tw th).length =
      ((H + th - 1) / th) * ((W + tw - 1) / tw) := by
  unfold tileOrigins
  refine (flatMap_const_length _ _ ((W + tw - 1) / tw) ?_).trans ?_
  · intro iy _
    rw [List.length_map, List.length_range]
  · rw [List.length_range]

/-- Under exact tiling, every tile origin leaves at least a full tile of
frame, so the `min` clipping is inert. -/
theorem tileOrigins_mem_full (W H tw th : Nat) (htw : 0 < tw)
    (hth : 0 < th) (hdW : tw ∣ W) (hdH : th ∣ H) :
    ∀ t ∈ tileOrigins W H tw th,
      min tw (W - t.2) = tw ∧ min th (H - t.1) = th := by
  intro t ht
  unfold tileOrigins at ht
  simp only [List.mem_flatMap, List.mem_map, List.mem_range] at ht
  obtain ⟨iy, hiy, ix, hix, rfl⟩ := ht
  obtain ⟨a, ha⟩ := hdW
  obtain ⟨b, hb⟩ := hdH
  have hceilW : (W + tw - 1) / tw = a := by
    rw [ha, show tw * a + tw - 1 = tw * a + (tw - 1) by omega,
      Nat.mul_add_div htw, Nat.div_eq_of_lt (by omega)]
    omega
  have hceilH : (H + th - 1) / th = b := by
    rw [hb, show th * b + th - 1 = th * b + (th - 1) by omega,
      Nat.mul_add_div hth, Nat.div_eq_of_lt (by omega)]
    omega
  rw [hceilW] at hix
  rw [hceilH] at hiy
  constructor
  · have h1 : tw * (ix + 1) ≤ tw * a := Nat.mul_le_mul_left tw (by omega)
    have h2 : tw * (ix + 1) = ix * tw + tw := by ring
    simp only
    omega
  · have h1 : th * (iy + 1) ≤ th * b := Nat.mul_le_mul_left th (by omega)
    have h2 : th * (iy + 1) = iy * th + th := by ring
    simp only
    omega

/-- Size-table plus payload byte totals of the tile loop, bounded by
4 table bytes plus the raw tile size per tile. -/
theorem packTiles_bound (ctx : pack_context_t) (src : Int → Nat)
    (dx dy : Int) (htw : 0 < ctx.twidth) (hth : 0 < ctx.theight)
    (hth4 : ctx.theight % 4 = 0) :
    ∀ (tiles : List (Nat × Nat)) (d : Nat → Nat)
      (sizes payloads S P : List Nat),
      (∀ t ∈ tiles, min ctx.twidth (ctx.width - t.2) = ctx.twidth ∧
        min ctx.theight (ctx.height - t.1) = ctx.theight) →
      (packTiles ctx src dx dy tiles d sizes payloads).1 = some (S, P) →
      S.length + P.length ≤ sizes.length + payloads.length +
        tiles.length * (4 + 2 * (ctx.twidth * ctx.theight)) := by
  intro tiles
  induction tiles with
  | nil =>
    intro d sizes payloads S P hmem hp
    unfold packTiles at hp
    injection hp with hp
    injection hp with hp1 hp2
    subst hp1
    subst hp2
    simp
  | cons t rest ih =>
    intro d sizes payloads S P hmem hp
    obtain ⟨ty, tx⟩ := t
    simp only [packTiles] at hp
    revert hp
    cases hpk : (pack_12bit_average (min ctx.twidth (ctx.width - tx))
        (min ctx.theight (ctx.height - ty)) d
        (shiftF src (ty * dy + tx * dx)) dx dy).1 with
    | none => intro hp; exact absurd hp (by simp)
    | some payload =>
      intro hp
      have hm := hmem (ty, tx) (List.mem_cons_self _ _)
      rw [hm.1, hm.2] at hpk
      have hshape := pack_12bit_average_shape ctx.twidth ctx.theight d _
        dx dy payload htw hth hth4 hpk
      have hlen : payload.length ≤ 2 * (ctx.twidth * ctx.theight) := by
        rcases hshape with h | ⟨h, h'⟩ | ⟨h, h'⟩ <;> omega
      have hrec := ih _ _ _ _ _
        (fun t ht => hmem t (List.mem_cons_of_mem _ ht)) hp
      rw [List.length_append, List.length_append] at hrec
      have h4 : (le32Bytes payload.length).length = 4 := rfl
      rw [List.length_cons, Nat.succ_mul]
      omega

end Vidpak

/-- Claim C4: for every valid context (`bpp = 12`, positive tile dims that
divide the frame, `th ≡ 0 mod 4`), `pack_calc_max_packed_size` equals
`W·H·2 + 4·(W/tw)·(H/th)` — a pure function of the context parameters —
and the byte count of every successful `pack_with_context` on a frame of
12-bit pixels is bounded by it. -/
theorem C4_max_packed_size (ctx : Vidpak.pack_context_t)
    (hbpp : ctx.bpp = 12) (htw : 0 < ctx.twidth) (hth : 0 < ctx.theight)
    (htw2 : ctx.twidth ≤ ctx.width) (hth2 : ctx.theight ≤ ctx.height)
    (hth4 : ctx.theight % 4 = 0) (hdW : ctx.twidth ∣ ctx.width)
    (hdH : ctx.theight ∣ ctx.height) (src : Int → Nat)
    (hpix : ∀ i, src i < 4096) (dx dy : Int) (d : Nat → Nat) (n : Nat)
    (bytes : List Nat)
    (hp : (Vidpak.pack_with_context ctx src dx dy d).1 = some (n, bytes)) :
    Vidpak.pack_calc_max_packed_size ctx =
      ctx.width * ctx.height * 2 +
        4 * (ctx.width / ctx.twidth) * (ctx.height / ctx.theight) ∧
    n ≤ Vidpak.pack_calc_max_packed_size ctx := by
  have hform : Vidpak.pack_calc_max_packed_size ctx =
      ctx.width * ctx.height * 2 +
        4 * (ctx.width / ctx.twidth) * (ctx.height / ctx.theight) := by
    unfold Vidpak.pack_calc_max_packed_size
    rw [hbpp, Vidpak.ceil_div_exact _ _ htw hdW,
      Vidpak.ceil_div_exact _ _ hth hdH]
  refine ⟨hform, ?_⟩
  rw [hform]
  unfold Vidpak.pack_with_context at hp
  dsimp only at hp
  split_ifs at hp with h1 h2
  revert hp
  cases hpk : (Vidpak.packTiles ctx src dx dy
      (Vidpak.tileOrigins ctx.width ctx.height ctx.twidth ctx.theight)
      d [] []).1 with
  | none => intro hp; exact absurd hp (by simp)
  | some sp =>
    obtain ⟨S, P⟩ := sp
    intro hp
    injection hp with hp
    injection hp with hp1 hp2
    subst hp1
    have hbound := Vidpak.packTiles_bound ctx src dx dy htw hth hth4
      (Vidpak.tileOrigins ctx.width ctx.height ctx.twidth ctx.theight)
      d [] [] S P
      (Vidpak.tileOrigins_mem_full ctx.width ctx.height ctx.twidth
        ctx.theight htw hth hdW hdH) hpk
    rw [Vidpak.tileOrigins_length] at hbound
    obtain ⟨a, ha⟩ := hdW
    obtain ⟨b, hb⟩ := hdH
    have hcW : (ctx.width + ctx.twidth - 1) / ctx.twidth = ctx.width / ctx.twidth :=
      Vidpak.ceil_div_exact _ _ htw ⟨a, ha⟩
    have hcH : (ctx.height + ctx.theight - 1) / ctx.theight = ctx.height / ctx.theight :=
      Vidpak.ceil_div_exact _ _ hth ⟨b, hb⟩
    rw [hcW, hcH] at hbound
    have hWa : ctx.width / ctx.twidth = a := by
      rw [ha, Nat.mul_div_cancel_left a htw]
    have hHb : ctx.height / ctx.theight = b := by
      rw [hb, Nat.mul_div_cancel_left b hth]
    rw [hWa, hHb] at hbound ⊢
    have hexp : b * a * (4 + 2 * (ctx.twidth * ctx.theight)) =
        ctx.width * ctx.height * 2 + 4 * a * b := by
      rw [ha, hb]
      ring
    simp only [List.length_nil] at hbound
    omega

/-- Witness for C4 at the all-zero 4×4 configuration. -/
theorem C4_max_packed_size_witness :
    Vidpak.pack_calc_max_packed_size ⟨4, 4, 12, 4, 4⟩ =
      4 * 4 * 2 + 4 * (4 / 4) * (4 / 4) ∧
    14 ≤ Vidpak.pack_calc_max_packed_size ⟨4, 4, 12, 4, 4⟩ :=
  C4_max_packed_size ⟨4, 4, 12, 4, 4⟩ rfl (by decide) (by decide) (by decide)
    (by decide) (by decide) (by decide) (by decide) (fun _ => 0)
    (fun _ => by show (0 : Nat) < 4096; decide) 1 4 (fun _ => 0) 14
    [10, 0, 0, 0, 0, 0, 0, 0, 0, 0, 0, 0, 0, 0] (by decide)

/-! ### Closed-form characterization of the packed residuals (claims C7, C1) -/

namespace Vidpak

/-- The first-row loop never writes below its starting offset. -/
theorem pack_row0_preserve (slices : Nat) (src : Int → Nat) (b : Nat → Int)
    (dx : Int) :
    ∀ (n j o : Nat) (d : Nat → Nat) (x : Nat), x < o →
      (pack_row0 slices src b dx n j d o).1 x = d x := by
  intro n
  induction n with
  | zero => intro j o d x hx; rfl
  | succ n ih =>
    intro j o d x hx
    simp only [pack_row0]
    rw [ih (j + 1) (o + slices) _ x (by omega)]
    simp only [upd, ite_apply]
    split_ifs <;> first | rfl | omega

/-- Value written by the first-row loop at column `j + t`, slice `k`
(the four-slice case of a valid tile). -/
theorem pack_row0_value (src : Int → Nat) (b : Nat → Int) (dx : Int) :
    ∀ (n j o : Nat) (d : Nat → Nat) (t k : Nat), t < n → k < 4 →
      (pack_row0 4 src b dx n j d o).1 (o + (4 * t + k)) =
        delta_encode_12bit (src (b k + dx * (j + t)))
          (src (b k + dx * (j + t) - dx)) := by
  intro n
  induction n with
  | zero => intro j o d t k ht hk; omega
  | succ n ih =>
    intro j o d t k ht hk
    simp only [pack_row0]
    cases t with
    | zero =>
      rw [pack_row0_preserve 4 src b dx n (j + 1) (o + 4) _
        (o + (4 * 0 + k)) (by omega)]
      have hxk : o + (4 * 0 + k) = o + k := by omega
      rw [hxk]
      interval_cases k <;>
        simp [upd, Nat.add_left_cancel_iff]
    | succ t' =>
      have hx : o + (4 * (t' + 1) + k) = (o + 4) + (4 * t' + k) := by omega
      rw [hx]
      refine (ih (j + 1) (o + 4) _ t' k (by omega) hk).trans ?_
      push_cast
      ring_nf

end Vidpak

namespace Vidpak

/-- The main-row column loop never writes below its starting offset. -/
theorem pack_rowy_cols_preserve (src : Int → Nat) (p : Nat → Int)
    (s : Nat → Bool) (active : Nat) (dx dy : Int) :
    ∀ (n j o : Nat) (d : Nat → Nat) (x : Nat), x < o →
      (pack_rowy_cols src p s active dx dy n j d o).1 x = d x := by
  intro n
  induction n with
  | zero => intro j o d x hx; rfl
  | succ n ih =>
    intro j o d x hx
    simp only [pack_rowy_cols]
    rw [ih (j + 1) (o + active) _ x (by omega)]
    simp only [upd, ite_apply]
    split_ifs <;> first | rfl | omega

/-- Value written by the main-row column loop at column `j + t`, slice
`k`, when all four slices are active. -/
theorem pack_rowy_cols_value (src : Int → Nat) (p : Nat → Int)
    (s : Nat → Bool) (dx dy : Int) (hs : ∀ k, k < 4 → s k = true) :
    ∀ (n j o : Nat) (d : Nat → Nat) (t k : Nat), t < n → k < 4 →
      (pack_rowy_cols src p s 4 dx dy n j d o).1 (o + (4 * t + k)) =
        delta_encode_12bit (src (p k + dx * (j + t)))
          (avgPred (src (p k + dx * (j + t) - dx))
            (src (p k + dx * (j + t) - dy))) := by
  have h0 := hs 0 (by omega)
  have h1 := hs 1 (by omega)
  have h2 := hs 2 (by omega)
  have h3 := hs 3 (by omega)
  intro n
  induction n with
  | zero => intro j o d t k ht hk; omega
  | succ n ih =>
    intro j o d t k ht hk
    simp only [pack_rowy_cols]
    cases t with
    | zero =>
      rw [pack_rowy_cols_preserve src p s 4 dx dy n (j + 1) (o + 4) _
        (o + (4 * 0 + k)) (by omega)]
      have hxk : o + (4 * 0 + k) = o + k := by omega
      rw [hxk]
      interval_cases k <;>
        simp [upd, h0, h1, h2, h3, Nat.add_left_cancel_iff]
    | succ t' =>
      have hx : o + (4 * (t' + 1) + k) = (o + 4) + (4 * t' + k) := by omega
      rw [hx]
      refine (ih (j + 1) (o + 4) _ t' k (by omega) hk).trans ?_
      push_cast
      ring_nf

/-- Every slice is active on every main row when the height is a
multiple of 4. -/
theorem sliceFlag_hm0 (sheight y k : Nat) : sliceFlag sheight 0 y k = true := by
  simp [sliceFlag]

/-- All four slices are counted active when the height is a multiple
of 4. -/
theorem rowActive_hm0 (sheight y : Nat) : rowActive sheight 0 y = 4 := by
  simp [rowActive, sliceFlag_hm0]

/-- The main row loop never writes below its starting offset. -/
theorem pack_rows_preserve (width sheight hm : Nat) (src : Int → Nat)
    (dx dy : Int) :
    ∀ (n y : Nat) (p : Nat → Int) (o : Nat) (d : Nat → Nat) (x : Nat), x < o →
      (pack_rows width sheight hm src dx dy n y p d o).1 x = d x := by
  intro n
  induction n with
  | zero => intro y p o d x hx; rfl
  | succ n ih =>
    intro y p o d x hx
    simp only [pack_rows]
    rw [pack_rowy_cols_snd]
    rw [ih (y + 1) _ _ _ x (by omega)]
    rw [pack_rowy_cols_preserve _ _ _ _ _ _ _ _ _ _ x (by omega)]
    simp only [upd, ite_apply]
    split_ifs <;> first | rfl | omega

end Vidpak

namespace Vidpak

/-- Values written by the main row loop when the height is a multiple of
4 (`hm = 0`, all slices active): for row `t` of the loop (absolute slice
row `t + 1`), column 0 is top-predicted and columns `1 ≤ j < width` are
average-predicted.  `p k` is the row base of slice `k` before the loop. -/
theorem pack_rows_value (width sheight : Nat) (src : Int → Nat)
    (dx dy : Int) (hw : 0 < width) :
    ∀ (n y : Nat) (p : Nat → Int) (o : Nat) (d : Nat → Nat),
      (∀ t k, t < n → k < 4 →
        (pack_rows width sheight 0 src dx dy n y p d o).1
            (o + 4 * width * t + k) =
          delta_encode_12bit (src (p k + dy * (t + 1)))
            (src (p k + dy * (t + 1) - dy))) ∧
      (∀ t j k, t < n → 1 ≤ j → j < width → k < 4 →
        (pack_rows width sheight 0 src dx dy n y p d o).1
            (o + 4 * width * t + (4 * j + k)) =
          delta_encode_12bit (src (p k + dy * (t + 1) + dx * j))
            (avgPred (src (p k + dy * (t + 1) + dx * j - dx))
              (src (p k + dy * (t + 1) + dx * j - dy)))) := by
  intro n
  induction n with
  | zero => exact fun y p o d => ⟨fun t k ht => by omega, fun t j k ht => by omega⟩
  | succ n ih =>
    intro y p o d
    constructor
    · intro t k ht hk
      simp only [pack_rows, sliceFlag_hm0, rowActive_hm0, if_true]
      rw [pack_rowy_cols_snd]
      cases t with
      | zero =>
        rw [(by omega : o + 4 * width * 0 + k = o + k)]
        rw [pack_rows_preserve width sheight 0 src dx dy n (y + 1) _
          (o + 4 + 4 * (width - 1)) _ (o + k) (by omega)]
        rw [pack_rowy_cols_preserve src _ _ 4 dx dy (width - 1) 1 (o + 4) _
          (o + k) (by omega)]
        interval_cases k <;>
          simp [upd, sliceFlag_hm0, Nat.add_left_cancel_iff] <;> ring_nf
      | succ t' =>
        rw [(by omega : o + 4 + 4 * (width - 1) = o + 4 * width)]
        rw [(by rw [Nat.mul_succ]; omega :
          o + 4 * width * (t' + 1) + k = (o + 4 * width) + 4 * width * t' + k)]
        refine ((ih (y + 1) _ (o + 4 * width) _).1 t' k (by omega) hk).trans ?_
        push_cast
        ring_nf
    · intro t j k ht hj hjw hk
      simp only [pack_rows, sliceFlag_hm0, rowActive_hm0, if_true]
      rw [pack_rowy_cols_snd]
      cases t with
      | zero =>
        rw [(by omega : o + 4 * width * 0 + (4 * j + k) = o + (4 * j + k))]
        rw [pack_rows_preserve width sheight 0 src dx dy n (y + 1) _
          (o + 4 + 4 * (width - 1)) _ (o + (4 * j + k)) (by omega)]
        rw [(by omega : o + (4 * j + k) = (o + 4) + (4 * (j - 1) + k))]
        refine (pack_rowy_cols_value src _ _ dx dy
          (fun k hk => rfl) (width - 1) 1 (o + 4) _
          (j - 1) k (by omega) hk).trans ?_
        have hc : ((j - 1 : Nat) : Int) = (j : Int) - 1 := by omega
        rw [hc]
        push_cast
        ring_nf
      | succ t' =>
        rw [(by omega : o + 4 + 4 * (width - 1) = o + 4 * width)]
        rw [(by rw [Nat.mul_succ]; omega :
          o + 4 * width * (t' + 1) + (4 * j + k) =
            (o + 4 * width) + 4 * width * t' + (4 * j + k))]
        refine ((ih (y + 1) _ (o + 4 * width) _).2 t' j k (by omega) hj hjw
          hk).trans ?_
        push_cast
        ring_nf

end Vidpak

namespace Vidpak

/-- Helper: the 12-bit delta code round-trips for any predictor below
2^16 (same computation as pack.c lines 29-39). -/
theorem delta_roundtrip_pred (p q : Nat) (hp : p < 4096) (hq : q < 65536) :
    delta_decode_12bit (delta_encode_12bit p q) q = p := by
  unfold delta_encode_12bit delta_decode_12bit
  omega

/-- Helper: the average predictor is a 16-bit value. -/
theorem avgPred_lt (a b : Nat) : avgPred a b < 65536 := by
  unfold avgPred
  omega

/-- Helper: a chain of four frame writes, each of which stores `f` of its
own target address, evaluates to `f x` at any of the four targets. -/
theorem updZ_chain4_written (dest : Int → Nat) (addr : Nat → Int)
    (val : Nat → Nat) (f : Int → Nat) (hv : ∀ k, k < 4 → val k = f (addr k))
    (x : Int) (hx : ∃ k, k < 4 ∧ x = addr k) :
    updZ (updZ (updZ (updZ dest (addr 0) (val 0)) (addr 1) (val 1))
      (addr 2) (val 2)) (addr 3) (val 3) x = f x := by
  obtain ⟨k0, hk0, hxk⟩ := hx
  simp only [updZ]
  by_cases h3 : x = addr 3
  · rw [if_pos h3, hv 3 (by omega), h3]
  · rw [if_neg h3]
    by_cases h2 : x = addr 2
    · rw [if_pos h2, hv 2 (by omega), h2]
    · rw [if_neg h2]
      by_cases h1 : x = addr 1
      · rw [if_pos h1, hv 1 (by omega), h1]
      · rw [if_neg h1]
        by_cases h0 : x = addr 0
        · rw [if_pos h0, hv 0 (by omega), h0]
        · interval_cases k0 <;> exact absurd hxk (by assumption)

/-- Helper: a chain of four frame writes leaves every other address
untouched. -/
theorem updZ_chain4_frame (dest : Int → Nat) (addr : Nat → Int)
    (val : Nat → Nat) (x : Int) (hx : ∀ k, k < 4 → x ≠ addr k) :
    updZ (updZ (updZ (updZ dest (addr 0) (val 0)) (addr 1) (val 1))
      (addr 2) (val 2)) (addr 3) (val 3) x = dest x := by
  simp only [updZ]
  rw [if_neg (hx 3 (by omega)), if_neg (hx 2 (by omega)),
    if_neg (hx 1 (by omega)), if_neg (hx 0 (by omega))]

/-- The first-row reconstruction loop advances the residual index by four
per column. -/
theorem unpack_row0_snd (diff : Nat → Nat) (b : Nat → Int) (dx : Int) :
    ∀ (n j : Nat) (l : Nat → Nat) (dest : Int → Nat) (i : Nat),
      (unpack_row0 4 diff b dx n j l dest i).2 = i + 4 * n := by
  intro n
  induction n with
  | zero => intro j l dest i; simp [unpack_row0]
  | succ n ih => intro j l dest i; simp only [unpack_row0]; rw [ih]; ring

end Vidpak

namespace Vidpak

/-- Correctness of the first-row reconstruction loop: if the residuals at
indices `i, i+4, …` are the left-prediction codes of `src` along columns
`j, j+1, …` and the registers hold the column `j-1` pixels, then the loop
writes the `src` pixels, leaves other addresses alone, and ends with the
registers at column `j - 1 + n`. -/
theorem unpack_row0_correct (diff : Nat → Nat) (b : Nat → Int) (dx : Int)
    (src : Int → Nat) (hsrc : ∀ z, src z < 4096) :
    ∀ (n j : Nat) (l : Nat → Nat) (dest : Int → Nat) (i : Nat), 1 ≤ j →
      (∀ t k, t < n → k < 4 →
        diff (i + 4 * t + k) =
          delta_encode_12bit (src (b k + dx * (j + t)))
            (src (b k + dx * (j + t) - dx))) →
      (∀ k, k < 4 → l k = src (b k + dx * (j - 1))) →
      (∀ k, k < 4 →
        (unpack_row0 4 diff b dx n j l dest i).1.1 k =
          src (b k + dx * (j - 1 + n))) ∧
      (∀ x : Int, (∃ t k, t < n ∧ k < 4 ∧ x = b k + dx * (j + t)) →
        (unpack_row0 4 diff b dx n j l dest i).1.2 x = src x) ∧
      (∀ x : Int, (∀ t k, t < n → k < 4 → x ≠ b k + dx * (j + t)) →
        (unpack_row0 4 diff b dx n j l dest i).1.2 x = dest x) := by
  intro n
  induction n with
  | zero =>
    intro j l dest i hj hdiff hl
    refine ⟨fun k hk => ?_, fun x hx => ?_, fun x hx => rfl⟩
    · show l k = _
      rw [hl k hk]
      congr 1 <;> (push_cast; ring)
    · obtain ⟨t, k, ht, _⟩ := hx
      omega
  | succ n ih =>
    intro j l dest i hj hdiff hl
    have hval : ∀ k, k < 4 →
        delta_decode_12bit (diff (i + k)) (l k) =
          src (b k + dx * (j : Int)) := by
      intro k hk
      have h0 := hdiff 0 k (by omega) hk
      rw [(by omega : i + 4 * 0 + k = i + k)] at h0
      rw [h0, hl k hk]
      have hBC : b k + dx * ((j : Int) + ((0 : Nat) : Int)) - dx =
          b k + dx * ((j : Int) - 1) := by
        push_cast
        ring
      rw [hBC]
      rw [delta_roundtrip_pred _ _ (hsrc _) (lt_trans (hsrc _) (by norm_num))]
      congr 1 <;> (push_cast; ring)
    have hdiff' : ∀ t k, t < n → k < 4 →
        diff ((i + 4) + 4 * t + k) =
          delta_encode_12bit (src (b k + dx * ((j + 1 : Nat) + t)))
            (src (b k + dx * ((j + 1 : Nat) + t) - dx)) := by
      intro t k ht hk
      have h := hdiff (t + 1) k (by omega) hk
      rw [(by omega : i + 4 * (t + 1) + k = (i + 4) + 4 * t + k)] at h
      rw [h]
      have hcast : ((j : Int) + ((t + 1 : Nat) : Int)) =
          (((j + 1 : Nat) : Int) + (t : Int)) := by push_cast; ring
      rw [hcast]
    simp only [unpack_row0]
    have c0 : (0 : Nat) < 4 := by norm_num
    have c1 : (1 : Nat) < 4 := by norm_num
    have c2 : (2 : Nat) < 4 := by norm_num
    have c3 : (3 : Nat) < 4 := by norm_num
    simp only [if_pos c0, if_pos c1, if_pos c2, if_pos c3]
    refine ⟨fun k hk => ?_, fun x hx => ?_, fun x hx => ?_⟩
    · refine ((ih (j + 1) _ _ (i + 4) (by omega) hdiff' ?_).1 k hk).trans ?_
      · intro k' hk'
        show (if k' < 4 then delta_decode_12bit (diff (i + k')) (l k')
          else l k') = _
        rw [if_pos hk', hval k' hk']
        congr 1 <;> (push_cast; ring)
      · congr 1 <;> (push_cast; ring)
    · by_cases hlater : ∃ t k, t < n ∧ k < 4 ∧
          x = b k + dx * (((j + 1 : Nat) : Int) + (t : Int))
      · exact (ih (j + 1) _ _ (i + 4) (by omega) hdiff'
          (fun k' hk' => by
            show (if k' < 4 then delta_decode_12bit (diff (i + k')) (l k')
              else l k') = _
            rw [if_pos hk', hval k' hk']
            congr 1 <;> (push_cast; ring))).2.1 x hlater
      · obtain ⟨t, k0, ht, hk0, hxeq⟩ := hx
        rcases Nat.eq_zero_or_pos t with ht0 | ht1
        · subst ht0
          have hx0 : x = b k0 + dx * (j : Int) := by
            rw [hxeq]
            congr 1 <;> (push_cast; ring)
          refine ((ih (j + 1) _ _ (i + 4) (by omega) hdiff' ?_).2.2 x
            ?_).trans ?_
          · intro k' hk'
            show (if k' < 4 then delta_decode_12bit (diff (i + k')) (l k')
              else l k') = _
            rw [if_pos hk', hval k' hk']
            congr 1 <;> (push_cast; ring)
          · intro t' k' ht' hk' hne
            exact hlater ⟨t', k', ht', hk', hne⟩
          · exact updZ_chain4_written dest (fun k => b k + dx * (j : Int))
              (fun k => delta_decode_12bit (diff (i + k)) (l k))
              src (fun k hk => hval k hk) x ⟨k0, hk0, hx0⟩
        · refine absurd ⟨t - 1, k0, by omega, hk0, ?_⟩ hlater
          rw [hxeq]
          congr 1
          have hce : ((j : Int) + (t : Int)) =
              (((j + 1 : Nat) : Int) + ((t - 1 : Nat) : Int)) := by omega
          rw [hce]
    · refine ((ih (j + 1) _ _ (i + 4) (by omega) hdiff' ?_).2.2 x ?_).trans ?_
      · intro k' hk'
        show (if k' < 4 then delta_decode_12bit (diff (i + k')) (l k')
          else l k') = _
        rw [if_pos hk', hval k' hk']
        congr 1 <;> (push_cast; ring)
      · intro t' k' ht' hk' hne
        refine hx (t' + 1) k' (by omega) hk' ?_
        rw [hne]
        congr 1 <;> (push_cast; ring)
      · exact updZ_chain4_frame dest (fun k => b k + dx * (j : Int))
          (fun k => delta_decode_12bit (diff (i + k)) (l k)) x
          (by
            intro k hk hne
            refine hx 0 k (by omega) hk ?_
            rw [hne]
            congr 1 <;> (push_cast; ring))

end Vidpak
